import Mathlib

/-!
Verification development for the SLS (stochastic local search) context of the
repository, `src/src/ast/sls/sls_context.cpp`.  The C++ context is embedded
shallowly: the context/solver state becomes an explicit record, theory plugins
become records of state transformers (their concrete repair algorithms are
external to this file), the ast manager's resource limit `m.inc()` becomes a
decreasing budget, and general recursion is made total with an explicit fuel
argument (fuel exhaustion returns the current state unchanged; any theorem that
depends on the loop actually reaching its exit condition carries an explicit
sufficient-fuel hypothesis).
-/

set_option linter.unusedVariables false

namespace SlsSpec

/-- Three-valued result type mirroring lbool (l_false, l_true, l_undef). -/
inductive Lbool where
  | lfalse
  | ltrue
  | lundef
deriving DecidableEq, Repr

/-- A SAT literal, as sat::literal: Boolean variable plus sign
(sign = true means the negative literal). -/
structure Lit where
  var : Nat
  sign : Bool
deriving DecidableEq, Repr

instance : Inhabited Lit := ⟨⟨0, false⟩⟩

/-- Literal negation, operator ~ on sat::literal. -/
def negL (l : Lit) : Lit := ⟨l.var, !l.sign⟩

/-- sat::literal::index(): 2 * var + sign. -/
def Lit.index (l : Lit) : Nat := 2 * l.var + (if l.sign then 1 else 0)

/-- null_family_id of the ast manager. -/
def nullFamilyId : Int := -1

/-- basic_family_id: the Boolean/basic theory family. -/
def basicFamilyId : Int := 0

/-- Shallow embedding of ast-manager expressions, covering exactly the shapes
sls_context.cpp discriminates on: true/false, not, and, or, equality (which is
iff when the arguments are Boolean), xor, ite, other applications (with a
declaration family id, a result sort family id, a declaration key and
arguments) and non-application terms (variables). -/
inductive Expr where
  | etrue
  | efalse
  | enot (e : Expr)
  | eand (args : List Expr)
  | eor (args : List Expr)
  | eeq (a b : Expr)
  | exor (a b : Expr)
  | eite (c t e : Expr)
  | eapp (fid : Int) (srt : Int) (decl : Nat) (args : List Expr)
  | evar (srt : Int) (idx : Nat)

/-- Encoding of an integer family id into Nat, for expression identities. -/
def intId (i : Int) : Nat := if i < 0 then 2 * (-i).toNat + 1 else 2 * i.toNat

mutual
/-- Stable identity of an expression (expr::get_id of the hash-consing ast
manager): structurally equal terms have equal ids. -/
def Expr.eid : Expr → Nat
  | .etrue => Nat.pair 0 0
  | .efalse => Nat.pair 1 0
  | .enot e => Nat.pair 2 e.eid
  | .eand args => Nat.pair 3 (eidList args)
  | .eor args => Nat.pair 4 (eidList args)
  | .eeq a b => Nat.pair 5 (Nat.pair a.eid b.eid)
  | .exor a b => Nat.pair 6 (Nat.pair a.eid b.eid)
  | .eite a b c => Nat.pair 7 (Nat.pair a.eid (Nat.pair b.eid c.eid))
  | .eapp fid srt d args =>
      Nat.pair 8 (Nat.pair (intId fid) (Nat.pair (intId srt) (Nat.pair d (eidList args))))
  | .evar srt n => Nat.pair 9 (Nat.pair (intId srt) n)

/-- Identity of a list of expressions. -/
def eidList : List Expr → Nat
  | [] => 0
  | e :: es => Nat.pair (e.eid + 1) (eidList es)
end

mutual
/-- get_depth of an expression. -/
def Expr.depth : Expr → Nat
  | .etrue => 1
  | .efalse => 1
  | .enot e => 1 + e.depth
  | .eand args => 1 + depthList args
  | .eor args => 1 + depthList args
  | .eeq a b => 1 + max a.depth b.depth
  | .exor a b => 1 + max a.depth b.depth
  | .eite a b c => 1 + max a.depth (max b.depth c.depth)
  | .eapp _ _ _ args => 1 + depthList args
  | .evar _ _ => 1

/-- Maximal depth of a list of expressions. -/
def depthList : List Expr → Nat
  | [] => 0
  | e :: es => max e.depth (depthList es)
end

/-- is_app(e): every term except a (bound) variable is an application. -/
def Expr.isApp : Expr → Bool
  | .evar _ _ => false
  | _ => true

/-- Family id of the sort of an expression (e->get_sort()->get_family_id()).
The Boolean connectives and equality are Bool-sorted (basic family); an ite has
the sort of its branches. -/
def Expr.sortFid : Expr → Int
  | .etrue => basicFamilyId
  | .efalse => basicFamilyId
  | .enot _ => basicFamilyId
  | .eand _ => basicFamilyId
  | .eor _ => basicFamilyId
  | .eeq _ _ => basicFamilyId
  | .exor _ _ => basicFamilyId
  | .eite _ t _ => t.sortFid
  | .eapp _ srt _ _ => srt
  | .evar srt _ => srt

/-- Family id of the declaration of an application (to_app(e)->get_family_id()).
The built-in connectives and equality belong to the basic family. -/
def Expr.declFid : Expr → Int
  | .eapp fid _ _ _ => fid
  | .evar _ _ => nullFamilyId
  | _ => basicFamilyId

/-- m.is_eq(e): equality (and hence also iff, an equality of Booleans). -/
def Expr.isEq : Expr → Bool
  | .eeq _ _ => true
  | _ => false

/-- m.is_bool(e): e is Bool-sorted. -/
def Expr.isBool (e : Expr) : Bool := e.sortFid == basicFamilyId

/-- Direct arguments of an application term. -/
def Expr.args : Expr → List Expr
  | .enot e => [e]
  | .eand l => l
  | .eor l => l
  | .eeq a b => [a, b]
  | .exor a b => [a, b]
  | .eite a b c => [a, b, c]
  | .eapp _ _ _ l => l
  | _ => []

/-- The while (m.is_not(e, e)) loop of context::mk_literal: strip a chain of
negations, returning the core term and the parity of stripped negations. -/
def stripNot : Expr → Expr × Bool
  | .enot e => let r := stripNot e; (r.1, !r.2)
  | e => (e, false)

/-- context::get_fid (sls_context.cpp): family id used for plugin dispatch.
Non-applications map to null_family_id; for an equality the family of the sort
of the first argument replaces the declaration's (basic) family. -/
def getFid (e : Expr) : Int :=
  if !e.isApp then nullFamilyId
  else
    match e with
    | .eeq a _ => a.sortFid
    | _ => e.declFid

/-- is_uninterp_const(e): application of an uninterpreted (null-family)
declaration to no arguments. -/
def Expr.isUninterpConst : Expr → Bool
  | .eapp fid _ _ [] => fid == nullFamilyId
  | _ => false

/-- Declaration key of an application (used as model key for uninterpreted
constants). -/
def Expr.declKey : Expr → Nat
  | .eapp _ _ d _ => d
  | _ => 0

/-- indexed_uint_set::insert: idempotent insertion. -/
def iInsert (x : Nat) (l : List Nat) : List Nat :=
  if x ∈ l then l else x :: l

/-- Element of minimal priority in a list (first among ties). -/
def findMin (prio : Nat → Nat) : List Nat → Option Nat
  | [] => none
  | x :: xs =>
    match findMin prio xs with
    | none => some x
    | some y => some (if prio x ≤ prio y then x else y)

/-- erase_min of the priority worklists: remove and return the element of
minimal priority. -/
def eraseMin (prio : Nat → Nat) (l : List Nat) : Option (Nat × List Nat) :=
  match findMin prio l with
  | none => none
  | some m => some (m, l.erase m)

/-- A model, as the association of declaration keys to value expressions
(model::register_decl). -/
def Model := List (Nat × Expr)

/-- model::register_decl: associate a declaration with a value. -/
def modelRegister (k : Nat) (v : Expr) (m : Model) : Model := (k, v) :: m

/-- The observable state of sls::context together with its collaborating
sat_solver_context: the atom tables, the CNF skeleton and Boolean assignment of
the SAT oracle, the two repair worklists, the relevance data, the term registry
(allterms/parents/todo/subterm cache), unit-clause data, the new-constraint
flag, the resource budget of m.inc(), the unsat set of the oracle, the random
generator (a stream with a cursor) and statistics counters. -/
structure State where
  numVars : Nat
  atoms : List (Nat × Expr)
  a2b : List (Nat × Nat)
  clauses : List (List Lit)
  assign : Nat → Bool
  newConstraint : Bool
  initialized : Bool
  repairDown : List Nat
  repairUp : List Nat
  relevant : List Nat
  visited : List Nat
  rootLits : List Lit
  allterms : List (Nat × Expr)
  parents : List (Nat × List Expr)
  todo : List Expr
  subtermsCache : List Expr
  unitLits : List Lit
  unitIndices : List Nat
  resource : Nat
  unsatSet : List Nat
  rnd : Nat → Nat
  rndIdx : Nat
  statsDown : Nat
  statsUp : Nat
  statsConstraints : Nat

/-- A theory plugin, abstractly: the capability set of sls::plugin. Each
method is a transformer of the full observable state (a plugin may call back
into the context, e.g. add clauses or schedule repairs). -/
structure Plugin where
  fid : Int
  registerTerm : Expr → State → State
  initP : State → State
  startPropagation : State → State
  propagateLit : Lit → State → State
  repairDown : Expr → State → State × Bool
  repairUp : Expr → State → State
  repairLiteral : Lit → State → State
  propagate : State → State × Bool
  isSat : State → Bool
  mkModel : Model → State → Model
  getValue : Expr → State → Expr

/-- The fixed wiring of a context: the plugin table indexed by family id and
the two worklist priority functions (m_gd for repair-down, m_ld for repair-up;
their concrete definitions live in the sls_context.h header, outside this
excerpt, so they are parameters here). -/
structure Ctx where
  plugins : List (Option Plugin)
  pdown : Nat → Nat
  pup : Nat → Nat

/-- m_plugins.get(fid, nullptr): plugin lookup by family id. Null family id
(negative) has no plugin. -/
def pluginsGet (ps : List (Option Plugin)) (fid : Int) : Option Plugin :=
  if fid < 0 then none
  else match ps.get? fid.toNat with
       | some op => op
       | none => none

/-- Iteration `for (auto p : m_plugins) if (p) ...` over the plugin table. -/
def pluginFold (g : Plugin → State → State) : List (Option Plugin) → State → State
  | [], s => s
  | none :: ps, s => pluginFold g ps s
  | some p :: ps, s => pluginFold g ps (g p s)

/-- s.is_true(lit): truth of a literal under the SAT oracle assignment. -/
def litTrue (s : State) (l : Lit) : Bool := s.assign l.var != l.sign

/-- m.inc(): consume one unit of the resource budget; false when exhausted. -/
def inc (s : State) : Bool × State :=
  if s.resource = 0 then (false, s)
  else (true, { s with resource := s.resource - 1 })

/-- context::register_atom: m_atoms.setx(v, e) and
m_atom2bool_var.setx(e->get_id(), v). -/
def registerAtom (v : Nat) (e : Expr) (s : State) : State :=
  { s with atoms := (v, e) :: s.atoms, a2b := (e.eid, v) :: s.a2b }

/-- s.add_clause(n, lits): append a clause to the SAT oracle's skeleton
(does not raise the new-constraint flag). -/
def addSolverClause (cl : List Lit) (s : State) : State :=
  { s with clauses := s.clauses ++ [cl] }

/-- context::register_term: notify every plugin of a newly registered term. -/
def ctxRegisterTerm (c : Ctx) (e : Expr) (s : State) : State :=
  pluginFold (fun p s => p.registerTerm e s) c.plugins s

/-- term(id): the registered term with the given id (m_allterms.get(id)). -/
def termOf (s : State) (id : Nat) : Option Expr := s.allterms.lookup id

/-- is_visited of context::register_terms: the term is already in m_allterms. -/
def isVisitedT (s : State) (e : Expr) : Bool := (s.allterms.lookup e.eid).isSome

/-- m_parents[arg].push_back(e) for every direct argument of e. -/
def addParentLinks (e : Expr) (s : State) : State :=
  { s with parents :=
      e.args.foldl (fun ps a => (a.eid, ((ps.lookup a.eid).getD []) ++ [e]) :: ps) s.parents }

/-- The final literal returned by context::mk_literal: `neg ? ~lit : lit`. -/
def polarity (neg : Bool) (lit : Lit) : Lit := if neg then negL lit else lit

mutual
/-- context::mk_literal(expr* e) (sls_context.cpp, Tseitin encoder): strip
negations, return the existing literal when the core term already has an atom,
otherwise allocate a fresh Boolean variable, register the atom and encode the
structural connectives into CNF clauses added to the SAT oracle.  Plain terms
go through register_terms instead.  The fuel argument only bounds recursion
depth; the memo-hit path consumes no fuel. -/
def mkLiteral (c : Ctx) (fuel : Nat) (s : State) (e : Expr) : Lit × State :=
  let en := stripNot e
  match s.a2b.lookup en.1.eid with
  | some v => (⟨v, en.2⟩, s)
  | none =>
    match fuel with
    | 0 => (⟨0, false⟩, s)
    | f + 1 =>
      let v := s.numVars
      let lit : Lit := ⟨v, false⟩
      let s1 := registerAtom v en.1 { s with numVars := s.numVars + 1 }
      let s2 :=
        match en.1 with
        | .etrue => addSolverClause [lit] s1
        | .efalse => addSolverClause [negL lit] s1
        | .eand args =>
          let r := tseitinAnd c f lit s1 args
          addSolverClause (r.1 ++ [lit]) r.2
        | .eor args =>
          let r := tseitinOr c f lit s1 args
          addSolverClause (r.1 ++ [negL lit]) r.2
        | .eeq a b =>
          if a.isBool then
            let r1 := mkLiteral c f s1 a
            let r2 := mkLiteral c f r1.2 b
            let l1 := r1.1
            let l2 := r2.1
            addSolverClause [lit, negL l1, negL l2] (addSolverClause [lit, l1, l2]
              (addSolverClause [negL lit, l1, negL l2]
                (addSolverClause [negL lit, negL l1, l2] r2.2)))
          else registerTerms c f s1 en.1
        | .exor a b =>
          let r1 := mkLiteral c f s1 a
          let r2 := mkLiteral c f r1.2 b
          let l1 := r1.1
          let l2 := negL r2.1
          addSolverClause [lit, negL l1, negL l2] (addSolverClause [lit, l1, l2]
            (addSolverClause [negL lit, l1, negL l2]
              (addSolverClause [negL lit, negL l1, l2] r2.2)))
        | .eite a b k =>
          let r1 := mkLiteral c f s1 a
          let r2 := mkLiteral c f r1.2 b
          let r3 := mkLiteral c f r2.2 k
          let l1 := r1.1
          let l2 := r2.1
          let l3 := r3.1
          addSolverClause [lit, l1, negL l3] (addSolverClause [lit, negL l1, negL l2]
            (addSolverClause [negL lit, l1, l3]
              (addSolverClause [negL lit, negL l1, l2] r3.2)))
        | _ => registerTerms c f s1 en.1
      (polarity en.2 lit, s2)
termination_by (fuel, 0)

/-- The per-argument loop of mk_literal's conjunction case: for each argument,
make its literal, add the binary clause { ~lit, lit2 } and collect ~lit2 for
the closing clause. -/
def tseitinAnd (c : Ctx) (fuel : Nat) (lit : Lit) (s : State) (args : List Expr) :
    List Lit × State :=
  match fuel with
  | 0 => ([], s)
  | f + 1 =>
    match args with
    | [] => ([], s)
    | a :: rest =>
      let r := mkLiteral c f s a
      let s2 := addSolverClause [negL lit, r.1] r.2
      let rr := tseitinAnd c f lit s2 rest
      (negL r.1 :: rr.1, rr.2)
termination_by (fuel, 1)

/-- The per-argument loop of mk_literal's disjunction case: for each argument,
make its literal, add the binary clause { lit, ~lit2 } and collect lit2 for the
closing clause. -/
def tseitinOr (c : Ctx) (fuel : Nat) (lit : Lit) (s : State) (args : List Expr) :
    List Lit × State :=
  match fuel with
  | 0 => ([], s)
  | f + 1 =>
    match args with
    | [] => ([], s)
    | a :: rest =>
      let r := mkLiteral c f s a
      let s2 := addSolverClause [lit, negL r.1] r.2
      let rr := tseitinOr c f lit s2 rest
      (r.1 :: rr.1, rr.2)
termination_by (fuel, 1)

/-- The literal-collecting loops of context::add_clause(expr*):
clause.push_back(mk_literal(arg)) over a list of arguments. -/
def mkLits (c : Ctx) (fuel : Nat) (s : State) (args : List Expr) : List Lit × State :=
  match fuel with
  | 0 => ([], s)
  | f + 1 =>
    match args with
    | [] => ([], s)
    | a :: rest =>
      let r := mkLiteral c f s a
      let rr := mkLits c f r.2 rest
      (r.1 :: rr.1, rr.2)
termination_by (fuel, 1)

/-- context::add_clause(expr* f): top-level clausification with double-negation
elimination, De Morgan distribution over and/or, two-clause encodings for iff
and ite, and a unit clause in the default case. -/
def addClauseExpr (c : Ctx) (fuel : Nat) (s : State) (f : Expr) : State :=
  match fuel with
  | 0 => s
  | fl + 1 =>
    match f with
    | .enot (.enot g) => addClauseExpr c fl s g
    | _ =>
      let sg : Bool × Expr := match f with | .enot g => (true, g) | _ => (false, f)
      let sign := sg.1
      match sg.2 with
      | .eor args =>
        if sign then addNegAll c fl s args
        else
          let r := mkLits c fl s args
          addSolverClause r.1 r.2
      | .eand args =>
        if sign then
          let r := mkLits c fl s args
          addSolverClause (r.1.map negL) r.2
        else addAll c fl s args
      | .eeq g h =>
        if g.isBool then
          let r1 := mkLiteral c fl s g
          let r2 := mkLiteral c fl r1.2 h
          let l1 := r1.1
          let l2 := r2.1
          addSolverClause [if sign then negL l1 else l1, negL l2]
            (addSolverClause [if sign then l1 else negL l1, l2] r2.2)
        else
          let r := mkLiteral c fl s sg.2
          addSolverClause [if sign then negL r.1 else r.1] r.2
      | .eite g h k =>
        let r1 := mkLiteral c fl s g
        let r2 := mkLiteral c fl r1.2 h
        let r3 := mkLiteral c fl r2.2 k
        addSolverClause [r1.1, if sign then negL r3.1 else r3.1]
          (addSolverClause [negL r1.1, if sign then negL r2.1 else r2.1] r3.2)
      | g =>
        let r := mkLiteral c fl s g
        addSolverClause [if sign then negL r.1 else r.1] r.2
termination_by (fuel, 1)

/-- The loop `for (auto arg : *to_app(f)) add_clause(arg)` of add_clause's
positive-conjunction case. -/
def addAll (c : Ctx) (fuel : Nat) (s : State) (args : List Expr) : State :=
  match fuel with
  | 0 => s
  | f + 1 =>
    match args with
    | [] => s
    | a :: rest => addAll c f (addClauseExpr c f s a) rest
termination_by (fuel, 2)

/-- The loop of add_clause's negated-disjunction case: add_clause(mk_not(arg))
for each argument. -/
def addNegAll (c : Ctx) (fuel : Nat) (s : State) (args : List Expr) : State :=
  match fuel with
  | 0 => s
  | f + 1 =>
    match args with
    | [] => s
    | a :: rest => addNegAll c f (addClauseExpr c f s (.enot a)) rest
termination_by (fuel, 2)

/-- context::register_terms(expr* e): seed the explicit work stack m_todo and,
unless a registration pass is already in progress (re-entrancy guard
m_todo.size() > 1), drain it.  Also resets the cached depth-sorted subterm
list. -/
def registerTerms (c : Ctx) (fuel : Nat) (s : State) (e : Expr) : State :=
  if isVisitedT s e then s
  else
    let s0 := { s with subtermsCache := [], todo := s.todo ++ [e] }
    if s0.todo.length > 1 then s0
    else
      match fuel with
      | 0 => s0
      | f + 1 => rtLoop c f s0
termination_by (fuel, 1)

/-- The while (!m_todo.empty()) loop of register_terms: process the back of
the stack; a term whose arguments are all visited is popped, its parent links
are added, Bool-sorted terms get a literal, plugins are notified and the term
is marked visited; otherwise its arguments are pushed. -/
def rtLoop (c : Ctx) (fuel : Nat) (s : State) : State :=
  match fuel with
  | 0 => s
  | f + 1 =>
    match s.todo.getLast? with
    | none => s
    | some e =>
      if isVisitedT s e then rtLoop c f { s with todo := s.todo.dropLast }
      else if e.isApp then
        if e.args.all (fun a => isVisitedT s a) then
          let s1 := { s with todo := s.todo.dropLast }
          let s2 := addParentLinks e s1
          let s3 := if e.isBool then (mkLiteral c f s2 e).2 else s2
          let s4 := ctxRegisterTerm c e s3
          rtLoop c f { s4 with allterms := (e.eid, e) :: s4.allterms }
        else rtLoop c f { s with todo := s.todo ++ e.args }
      else
        let s1 := { s with todo := s.todo.dropLast }
        let s2 := ctxRegisterTerm c e s1
        rtLoop c f { s2 with allterms := (e.eid, e) :: s2.allterms }
termination_by (fuel, 0)
end

/-- context::add_constraint(expr* e): clausify e and raise the new-constraint
flag (and the statistics counter). -/
def addConstraint (c : Ctx) (fuel : Nat) (s : State) (e : Expr) : State :=
  let s1 := addClauseExpr c fuel s e
  { s1 with newConstraint := true, statsConstraints := s1.statsConstraints + 1 }

/-- context::propagate_literal(lit): if the literal is true and its variable
has an atom, dispatch to the plugin owning the atom's family. -/
def propagateLiteral (c : Ctx) (lit : Lit) (s : State) : State :=
  if !litTrue s lit then s
  else
    match s.atoms.lookup lit.var with
    | none => s
    | some a =>
      match pluginsGet c.plugins (getFid a) with
      | none => s
      | some p => p.propagateLit lit s

/-- The per-root-literal loop of propagate_boolean_assignment. -/
def propagateRootLits (c : Ctx) (lits : List Lit) (s : State) : State :=
  match lits with
  | [] => s
  | l :: rest => propagateRootLits c rest (propagateLiteral c l s)

/-- The per-clause literal scan of context::reinit_relevant: skip literals
without an atom or that are false; break (selecting nothing) as soon as a true
literal's atom is already relevant; otherwise reservoir-sample with
m_rand() % ++n == 0.  Returns the selected literal (if any) and the advanced
random cursor. -/
def scanClause (s : State) (lits : List Lit) (n : Nat) (sel : Option Lit) (idx : Nat) :
    Option Lit × Nat :=
  match lits with
  | [] => (sel, idx)
  | lit :: rest =>
    match s.atoms.lookup lit.var with
    | none => scanClause s rest n sel idx
    | some atm =>
      if !litTrue s lit then scanClause s rest n sel idx
      else if atm.eid ∈ s.relevant then (none, idx)
      else if s.rnd idx % (n + 1) = 0 then scanClause s rest (n + 1) (some lit) (idx + 1)
      else scanClause s rest (n + 1) sel (idx + 1)

/-- The clause loop of reinit_relevant: when a clause selects a representative
literal, its atom becomes relevant and the literal joins m_root_literals. -/
def reinitLoop (cls : List (List Lit)) (s : State) : State :=
  match cls with
  | [] => s
  | cl :: rest =>
    let r := scanClause s cl 0 none s.rndIdx
    let s1 := { s with rndIdx := r.2 }
    let s2 :=
      match r.1 with
      | none => s1
      | some lit =>
        match s1.atoms.lookup lit.var with
        | none => s1
        | some atm =>
          { s1 with relevant := iInsert atm.eid s1.relevant,
                    rootLits := s1.rootLits ++ [lit] }
    reinitLoop rest s2

/-- Modelled from the spec: the root-literal sequence is shuffled by a uniform
random permutation driven by the context's random generator; the shuffle
routine itself lives in a utility header outside this excerpt, so a
Fisher-Yates-style extraction is used. -/
def shuffleGo (rnd : Nat → Nat) (fuel : Nat) (idx : Nat) (l : List Lit) :
    List Lit × Nat :=
  match fuel with
  | 0 => (l, idx)
  | f + 1 =>
    match l with
    | [] => ([], idx)
    | _ =>
      let k := rnd idx % l.length
      let x := l.getD k default
      let r := shuffleGo rnd f (idx + 1) (l.eraseIdx k)
      (x :: r.1, r.2)

/-- context::reinit_relevant: reset the relevance data, select one root
literal per clause, and shuffle the root-literal sequence. -/
def reinitRelevant (s : State) : State :=
  let s0 := { s with relevant := [], visited := [], rootLits := [] }
  let s1 := reinitLoop s0.clauses s0
  let r := shuffleGo s1.rnd s1.rootLits.length s1.rndIdx s1.rootLits
  { s1 with rootLits := r.1, rndIdx := r.2 }

/-- One iteration of the repair-down drain of propagate_boolean_assignment:
erase_min, and when the term is an application with an owning plugin whose
repair_down fails while the id is not scheduled for repair-up, escalate by
inserting the id into the repair-up worklist. -/
def downStep (c : Ctx) (s : State) : State :=
  match eraseMin c.pdown s.repairDown with
  | none => s
  | some (id, rest) =>
    let s1 := { s with repairDown := rest }
    match termOf s1 id with
    | none => s1
    | some e =>
      if e.isApp then
        let s2 := { s1 with statsDown := s1.statsDown + 1 }
        match pluginsGet c.plugins (getFid e) with
        | none => s2
        | some p =>
          let r := p.repairDown e s2
          if r.2 = false ∧ id ∉ r.1.repairUp then
            { r.1 with repairUp := iInsert id r.1.repairUp }
          else r.1
      else s1

/-- One iteration of the repair-up drain: erase_min and dispatch repair_up to
the owning plugin of an application term. -/
def upStep (c : Ctx) (s : State) : State :=
  match eraseMin c.pup s.repairUp with
  | none => s
  | some (id, rest) =>
    let s1 := { s with repairUp := rest, statsUp := s.statsUp + 1 }
    match termOf s1 id with
    | none => s1
    | some e =>
      if e.isApp then
        match pluginsGet c.plugins (getFid e) with
        | none => s1
        | some p => p.repairUp e s1
      else s1

/-- while (!m_repair_down.empty() && !m_new_constraint && m.inc()) drain. -/
def downDrain (c : Ctx) (fuel : Nat) (s : State) : State :=
  match fuel with
  | 0 => s
  | f + 1 =>
    if s.repairDown = [] then s
    else if s.newConstraint then s
    else
      let r := inc s
      if r.1 = false then r.2
      else downDrain c f (downStep c r.2)

/-- while (!m_repair_up.empty() && !m_new_constraint && m.inc()) drain. -/
def upDrain (c : Ctx) (fuel : Nat) (s : State) : State :=
  match fuel with
  | 0 => s
  | f + 1 =>
    if s.repairUp = [] then s
    else if s.newConstraint then s
    else
      let r := inc s
      if r.1 = false then r.2
      else upDrain c f (upStep c r.2)

/-- The outer alternation
while (!m_new_constraint && m.inc() && (!up.empty() || !down.empty())). -/
def drainOuter (c : Ctx) (fuel : Nat) (s : State) : State :=
  match fuel with
  | 0 => s
  | f + 1 =>
    if s.newConstraint then s
    else
      let r := inc s
      if r.1 = false then r.2
      else if r.2.repairUp = [] ∧ r.2.repairDown = [] then r.2
      else drainOuter c f (upDrain c f (downDrain c f r.2))

/-- The body of context::repair_literals: for every Boolean variable with an
atom, rebuild the literal from the actual assignment and dispatch
repair_literal to the owning plugin; the loop stops early on a new
constraint. The is_true(bool_var) truth query is modelled from the spec as the
assignment of the variable (the overload lives in the sls_context.h header,
which is outside this excerpt). -/
def repairLitsLoop (c : Ctx) (fuel : Nat) (v : Nat) (s : State) : State :=
  match fuel with
  | 0 => s
  | f + 1 =>
    if v < s.numVars ∧ s.newConstraint = false then
      let s1 :=
        match s.atoms.lookup v with
        | none => s
        | some a =>
          let lit : Lit := ⟨v, !s.assign v⟩
          match pluginsGet c.plugins (getFid a) with
          | none => s
          | some p => p.repairLiteral lit s
      repairLitsLoop c f (v + 1) s1
    else s

/-- One round of the final-check propagation:
for (auto p : m_plugins) propagated |= p && !m_new_constraint && p->propagate().
Returns whether any plugin reported progress. -/
def propagateRound : List (Option Plugin) → State → Bool × State
  | [], s => (false, s)
  | none :: ps, s => propagateRound ps s
  | some p :: ps, s =>
    if s.newConstraint then propagateRound ps s
    else
      let r := p.propagate s
      let rr := propagateRound ps r.1
      (r.2 || rr.1, rr.2)

/-- The final-check loop of propagate_boolean_assignment:
while (propagated && !m_new_constraint) run a propagation round. -/
def finalCheck (c : Ctx) (fuel : Nat) (s : State) : State :=
  match fuel with
  | 0 => s
  | f + 1 =>
    if s.newConstraint then s
    else
      let r := propagateRound c.plugins s
      if r.1 then finalCheck c f r.2 else r.2

/-- context::propagate_boolean_assignment: recompute relevance, notify plugins
of propagation start, propagate every root literal, abort on a new constraint,
alternate the repair-down/repair-up drains, repair literals and run the
final-check propagation rounds. -/
def pba (c : Ctx) (fuel : Nat) (s : State) : State :=
  let s1 := reinitRelevant s
  let s2 := pluginFold (fun p s => p.startPropagation s) c.plugins s1
  let s3 := propagateRootLits c s2.rootLits s2
  if s3.newConstraint then s3
  else
    let s4 := drainOuter c fuel s3
    let s5 := repairLitsLoop c fuel 0 s4
    finalCheck c fuel s5

/-- all_of(m_plugins, [](auto* p) { return !p || p->is_sat(); }). -/
def allSat (ps : List (Option Plugin)) (s : State) : Bool :=
  ps.all fun op => match op with | none => true | some p => p.isSat s

/-- context::subterms(): the registered terms, stably sorted by depth
(the m_subterms cache is returned when non-empty). -/
def subtermsOf (s : State) : List Expr :=
  if !s.subtermsCache.isEmpty then s.subtermsCache
  else (s.allterms.map Prod.snd).insertionSort (fun a b => a.depth ≤ b.depth)

/-- context::get_value(expr* e): dispatch on the family of the sort of e. -/
def ctxGetValue (c : Ctx) (s : State) (e : Expr) : Expr :=
  match pluginsGet c.plugins e.sortFid with
  | some p => p.getValue e s
  | none => e

/-- The model construction of the l_true branch of context::check: register a
value for every uninterpreted constant among the subterms, then let every
plugin contribute through mk_model. -/
def buildModel (c : Ctx) (s : State) : Model :=
  let base := (subtermsOf s).foldl
    (fun md e => if e.isUninterpConst then modelRegister e.declKey (ctxGetValue c s e) md else md)
    []
  c.plugins.foldl
    (fun md op => match op with | none => md | some p => p.mkModel md s) base

/-- Unit clauses of the skeleton (clauses of size one), collected by init. -/
def collectUnits (cls : List (List Lit)) : List Lit :=
  cls.filterMap fun cl => match cl with | [l] => some l | _ => none

/-- The register_terms pass of init over every registered atom. -/
def initRegisterAll (c : Ctx) (fuel : Nat) : List (Nat × Expr) → State → State
  | [], s => s
  | (_, e) :: rest, s => initRegisterAll c fuel rest (registerTerms c fuel s e)

/-- context::init(): clear the new-constraint flag; on the first call collect
unit literals and indices, register the subterms of every atom, and let each
plugin initialize. -/
def init (c : Ctx) (fuel : Nat) (s : State) : State :=
  let s0 := { s with newConstraint := false }
  if s0.initialized then s0
  else
    let units := collectUnits s0.clauses
    let s1 := { s0 with initialized := true, unitLits := units,
                        unitIndices := units.foldl (fun l u => iInsert u.index l) [] }
    let s2 := initRegisterAll c fuel s1.atoms s1
    pluginFold (fun p s => p.initP s) c.plugins s2

/-- The while (unsat().empty() && m.inc()) loop of context::check.  Besides
the result and final state it returns the sequence of models passed to the
external collaborator callback s.on_model (which only this loop can invoke). -/
def checkLoop (c : Ctx) (fuel : Nat) (s : State) : Lbool × State × List Model :=
  match fuel with
  | 0 => (.lundef, s, [])
  | f + 1 =>
    if s.unsatSet ≠ [] then (.lundef, s, [])
    else
      let r := inc s
      if r.1 = false then (.lundef, r.2, [])
      else
        let s2 := pba c f r.2
        if s2.newConstraint ∨ s2.unsatSet ≠ [] then (.lundef, s2, [])
        else if allSat c.plugins s2 then (.ltrue, s2, [buildModel c s2])
        else checkLoop c f s2

/-- context::check(): init, then the outer propagation loop. -/
def check (c : Ctx) (fuel : Nat) (s : State) : Lbool × State × List Model :=
  checkLoop c fuel (init c fuel s)

/-- m.is_true(e): e is the true constant. -/
def Expr.isTrueConst : Expr → Bool
  | .etrue => true
  | _ => false

/-- context::is_true(expr* e): when the atom is mapped, query the basic
plugin's value of e; when unmapped, fall through to the is_true(bool_var)
overload at sat::null_bool_var.  That overload lives in the sls_context.h
header outside this excerpt and is modelled from the spec as a no-op special
case returning false for the null variable, so the fallback does not re-enter
is_true(expr*). -/
def isTrueExpr (c : Ctx) (s : State) (e : Expr) : Bool :=
  match s.a2b.lookup e.eid with
  | some _ =>
    match pluginsGet c.plugins basicFamilyId with
    | some p => (p.getValue e s).isTrueConst
    | none => false
  | none => false

/-- The public mutating entry points of the context that touch the atom
tables, as an operation alphabet for lifetime invariants. -/
inductive COp where
  | mkLit (e : Expr)
  | addCl (e : Expr)
  | addConstr (e : Expr)
  | regTerms (e : Expr)
  | regAtom (v : Nat) (e : Expr)

/-- Whether an operation is a direct external register_atom call. -/
def COp.isRegAtom : COp → Bool
  | .regAtom _ _ => true
  | _ => false

/-- Apply one context operation. -/
def applyOp (c : Ctx) (fuel : Nat) (op : COp) (s : State) : State :=
  match op with
  | .mkLit e => (mkLiteral c fuel s e).2
  | .addCl e => addClauseExpr c fuel s e
  | .addConstr e => addConstraint c fuel s e
  | .regTerms e => registerTerms c fuel s e
  | .regAtom v e => registerAtom v e s

/-- Apply a trace of context operations in order. -/
def applyOps (c : Ctx) (fuel : Nat) : List COp → State → State
  | [], s => s
  | op :: rest, s => applyOps c fuel rest (applyOp c fuel op s)

/-- The state touched by context::is_relevant: the per-round m_relevant and
m_visited indexed sets. -/
structure RState where
  relevant : List Nat
  visited : List Nat
deriving Repr

mutual
/-- context::is_relevant(expr* e), on term ids with the parent map read as a
function: relevant ids answer true, visited ids answer false, otherwise mark
visited and walk the parents, inserting into relevant on success.  Fuel bounds
the recursion depth up the parent graph. -/
def isRelevant (parents : Nat → List Nat) (fuel : Nat) (id : Nat) (s : RState) :
    Bool × RState :=
  match fuel with
  | 0 => (false, s)
  | f + 1 =>
    if id ∈ s.relevant then (true, s)
    else if id ∈ s.visited then (false, s)
    else isRelevantList parents f id (parents id) { s with visited := iInsert id s.visited }
termination_by (fuel, 0)

/-- The parent loop of is_relevant: on the first relevant parent, insert the
child into m_relevant and return true. -/
def isRelevantList (parents : Nat → List Nat) (fuel : Nat) (id : Nat) (ps : List Nat)
    (s : RState) : Bool × RState :=
  match ps with
  | [] => (false, s)
  | p :: rest =>
    let r := isRelevant parents fuel p s
    if r.1 then (true, { r.2 with relevant := iInsert id r.2.relevant })
    else isRelevantList parents fuel id rest r.2
termination_by (fuel, ps.length + 1)
end

/-- Transitive relevance as specified: a term is reachable iff it is a selected
root literal's atom or has a reachable parent. -/
inductive Reach (roots : List Nat) (parents : Nat → List Nat) : Nat → Prop where
  | root {t : Nat} : t ∈ roots → Reach roots parents t
  | up {t p : Nat} : p ∈ parents t → Reach roots parents p → Reach roots parents t

/-- The quiescent invariant of the relevance walk: the root atoms are seeded
into relevant, everything relevant is reachable, every visited non-relevant id
is unreachable, and every relevant id is visited or a root atom. -/
def RGood (roots : List Nat) (parents : Nat → List Nat) (s : RState) : Prop :=
  (∀ t ∈ roots, t ∈ s.relevant) ∧
  (∀ t ∈ s.relevant, Reach roots parents t) ∧
  (∀ t ∈ s.visited, t ∉ s.relevant → ¬ Reach roots parents t) ∧
  (∀ t ∈ s.relevant, t ∈ s.visited ∨ t ∈ roots)

/-- Height-bounded precondition for a single is_relevant call on a node of
height h: roots are seeded into relevant, relevant is sound for reachability,
every visited non-relevant node of height at most h is unreachable, and every
relevant node is visited or a root. -/
def RPre (roots : List Nat) (parents : Nat → List Nat) (ht : Nat → Nat) (h : Nat)
    (s : RState) : Prop :=
  (∀ t ∈ roots, t ∈ s.relevant) ∧
  (∀ t ∈ s.relevant, Reach roots parents t) ∧
  (∀ t ∈ s.visited, t ∉ s.relevant → ht t ≤ h → ¬ Reach roots parents t) ∧
  (∀ t ∈ s.relevant, t ∈ s.visited ∨ t ∈ roots)

/-- Postcondition relating the states before and after a relevance-walk call:
both sets grow, relevant stays sound, newly visited non-relevant nodes are
unreachable, previously undetermined nodes (except the optional in-progress
node x) stay non-relevant, and relevant stays within visited plus roots. -/
def RPostX (roots : List Nat) (parents : Nat → List Nat) (x : Option Nat)
    (s t : RState) : Prop :=
  (∀ u ∈ s.visited, u ∈ t.visited) ∧
  (∀ u ∈ s.relevant, u ∈ t.relevant) ∧
  (∀ u ∈ t.relevant, Reach roots parents u) ∧
  (∀ u ∈ t.visited, u ∉ t.relevant →
    (¬ Reach roots parents u) ∨ (u ∈ s.visited ∧ u ∉ s.relevant)) ∧
  (∀ u ∈ s.visited, u ∉ s.relevant → some u ≠ x → u ∉ t.relevant) ∧
  (∀ u ∈ t.relevant, u ∈ t.visited ∨ u ∈ roots)

/-- Boundedness of the atom table: every mapped Boolean variable is below the
variable counter of the SAT oracle (variables are allocated by add_var). -/
def atomBound (s : State) : Prop :=
  ∀ k e, s.atoms.lookup k = some e → k < s.numVars

/-- Existing term-to-variable bindings survive into the target state. -/
def presA (s t : State) : Prop :=
  ∀ k v, s.a2b.lookup k = some v → t.a2b.lookup k = some v

/-- Existing variable-to-term bindings survive, the variable counter grows
monotonically, and atom keys stay bounded. -/
def presB (s t : State) : Prop :=
  (∀ k e, s.atoms.lookup k = some e → t.atoms.lookup k = some e) ∧
  s.numVars ≤ t.numVars ∧ atomBound t

/-- The combined preservation relation for the atom tables. -/
def presAB (s t : State) : Prop := presA s t ∧ (atomBound s → presB s t)

/-- Hypothesis on plugin behaviour for atom-table claims: the register_term
hook of a plugin does not touch the context-private atom tables or the
variable counter of the SAT oracle. -/
def AtomQuiet (c : Ctx) : Prop :=
  ∀ p, some p ∈ c.plugins → ∀ e s,
    (p.registerTerm e s).a2b = s.a2b ∧ (p.registerTerm e s).atoms = s.atoms ∧
    (p.registerTerm e s).numVars = s.numVars

/-- Resource/new-constraint discipline of a state transformer: the resource
budget never grows (m.inc() only consumes it) and a raised new-constraint flag
is never cleared (only context::init clears it). -/
def MTame (f : State → State) : Prop :=
  ∀ s, (f s).resource ≤ s.resource ∧
    (s.newConstraint = true → (f s).newConstraint = true)

/-- A plugin whose methods used inside propagate_boolean_assignment respect
the resource/new-constraint discipline. -/
def PlTame (p : Plugin) : Prop :=
  (MTame p.startPropagation) ∧
  (∀ l, MTame (p.propagateLit l)) ∧
  (∀ e, MTame (fun s => (p.repairDown e s).1)) ∧
  (∀ e, MTame (p.repairUp e)) ∧
  (∀ l, MTame (p.repairLiteral l)) ∧
  (MTame (fun s => (p.propagate s).1))

/-- Every registered plugin of the context is tame. -/
def CtxTame (c : Ctx) : Prop := ∀ p, some p ∈ c.plugins → PlTame p

/-- Pairwise form of the resource/new-constraint discipline between a source
state and a target state. -/
def Tame2 (s t : State) : Prop :=
  t.resource ≤ s.resource ∧ (s.newConstraint = true → t.newConstraint = true)

/-- Post-drain discipline: the repair worklists are unchanged, the resource
budget did not grow, and a raised new-constraint flag stays raised. -/
def PostOk (s t : State) : Prop :=
  t.repairDown = s.repairDown ∧ t.repairUp = s.repairUp ∧
  t.resource ≤ s.resource ∧ (s.newConstraint = true → t.newConstraint = true)

/-- A plugin whose repair_literal and final-check propagate methods leave the
two repair worklists as they found them. -/
def PlKeepsWL (p : Plugin) : Prop :=
  (∀ l s, (p.repairLiteral l s).repairDown = s.repairDown ∧
          (p.repairLiteral l s).repairUp = s.repairUp) ∧
  (∀ s, (p.propagate s).1.repairDown = s.repairDown ∧
        (p.propagate s).1.repairUp = s.repairUp)

/-- Every registered plugin keeps the worklists in the post-drain phases. -/
def CtxKeepsWL (c : Ctx) : Prop := ∀ p, some p ∈ c.plugins → PlKeepsWL p

/-- An all-empty base state used by concrete scenarios. -/
def s0 : State where
  numVars := 0
  atoms := []
  a2b := []
  clauses := []
  assign := fun _ => false
  newConstraint := false
  initialized := true
  repairDown := []
  repairUp := []
  relevant := []
  visited := []
  rootLits := []
  allterms := []
  parents := []
  todo := []
  subtermsCache := []
  unitLits := []
  unitIndices := []
  resource := 0
  unsatSet := []
  rnd := fun _ => 0
  rndIdx := 0
  statsDown := 0
  statsUp := 0
  statsConstraints := 0

/-- A context with an empty plugin table and trivial priorities, used by
concrete scenarios. -/
def c0 : Ctx where
  plugins := []
  pdown := fun n => n
  pup := fun n => n

/-- A plugin all of whose methods leave the state unchanged and whose
repair_down always fails; used by concrete scenarios. -/
def failPlugin : Plugin where
  fid := 0
  registerTerm := fun _ s => s
  initP := fun s => s
  startPropagation := fun s => s
  propagateLit := fun _ s => s
  repairDown := fun _ s => (s, false)
  repairUp := fun _ s => s
  repairLiteral := fun _ s => s
  propagate := fun s => (s, false)
  isSat := fun _ => true
  mkModel := fun m _ => m
  getValue := fun e _ => e

/-- Candidate literal of the reinit_relevant scan: the literal has a
registered atom, is true, and its atom is not yet relevant. -/
def candB (s : State) (l : Lit) : Bool :=
  match s.atoms.lookup l.var with
  | none => false
  | some a => litTrue s l && !(s.relevant.contains a.eid)

/-- An uninterpreted Boolean constant with declaration key k. -/
def ubc (k : Nat) : Expr := .eapp nullFamilyId basicFamilyId k []

/-- A Boolean application owned by the basic family, with declaration key k. -/
def bapp (k : Nat) : Expr := .eapp basicFamilyId basicFamilyId k []

/-- Context with the fail-only plugin registered for the basic family. -/
def cFail : Ctx := { c0 with plugins := [some failPlugin] }

/-- Concrete state for the repair-down escalation scenario: the id of bapp 9
is scheduled for repair-down and the term is registered. -/
def sW4 : State := { s0 with repairDown := [(bapp 9).eid], allterms := [((bapp 9).eid, bapp 9)] }

/-- Concrete state with a pending repair-down item and an exhausted resource
budget. -/
def sW5 : State := { s0 with repairDown := [5] }

/-- Concrete state for the relevance scenarios: one unit clause whose literal
is true under the assignment and has atom ubc 2. -/
def sW7 : State :=
  { s0 with clauses := [[⟨0, false⟩]], atoms := [(0, ubc 2)], assign := fun _ => true }

/-- Concrete state for the root-selection scenario: clause one is a true unit
clause with atom ubc 3; clause two contains that same literal plus a second
true literal with atom ubc 4. -/
def sW8 : State :=
  { s0 with clauses := [[⟨0, false⟩], [⟨0, false⟩, ⟨1, false⟩]],
            atoms := [(0, ubc 3), (1, ubc 4)], assign := fun _ => true }

/-- The state reinit_relevant's clause loop reaches after processing the first
clause of sW8 (the state in which the second clause is scanned). -/
def sW8mid : State :=
  reinitLoop [[⟨0, false⟩]] { sW8 with relevant := [], visited := [], rootLits := [] }

/-! ## Helper lemmas -/

theorem mem_iInsert_self (x : Nat) (l : List Nat) : x ∈ iInsert x l := by
  unfold iInsert
  by_cases h : x ∈ l
  · rw [if_pos h]; exact h
  · rw [if_neg h]; exact List.mem_cons_self x l

theorem mem_iInsert_of_mem {y : Nat} (x : Nat) {l : List Nat} (h : y ∈ l) :
    y ∈ iInsert x l := by
  unfold iInsert
  by_cases hx : x ∈ l
  · rw [if_pos hx]; exact h
  · rw [if_neg hx]; exact List.mem_cons_of_mem x h

theorem mem_of_mem_iInsert {x y : Nat} {l : List Nat} (h : y ∈ iInsert x l) :
    y = x ∨ y ∈ l := by
  unfold iInsert at h
  by_cases hx : x ∈ l
  · rw [if_pos hx] at h
    exact Or.inr h
  · rw [if_neg hx] at h
    rcases List.mem_cons.mp h with h | h
    · exact Or.inl h
    · exact Or.inr h

theorem lookupHead {β : Type} (a : Nat) (b : β) (l : List (Nat × β)) :
    List.lookup a ((a, b) :: l) = some b := by
  simp [List.lookup]

theorem lookupTail {β : Type} {k a : Nat} (h : k ≠ a) (b : β) (l : List (Nat × β)) :
    List.lookup k ((a, b) :: l) = List.lookup k l := by
  simp only [List.lookup]
  rw [show (k == a) = false from beq_eq_false_iff_ne.mpr h]

theorem presA_refl (s : State) : presA s s := fun _ _ h => h

theorem presA_trans {a b c : State} (h1 : presA a b) (h2 : presA b c) : presA a c :=
  fun k v hk => h2 k v (h1 k v hk)

theorem presAB_of_eq {s t : State} (h1 : t.a2b = s.a2b) (h2 : t.atoms = s.atoms)
    (h3 : t.numVars = s.numVars) : presAB s t := by
  constructor
  · intro k v hk; rw [h1]; exact hk
  · intro hb
    refine ⟨?_, ?_, ?_⟩
    · intro k e hk; rw [h2]; exact hk
    · rw [h3]
    · intro k e hk
      rw [h2] at hk
      rw [h3]
      exact hb k e hk

theorem presAB_refl (s : State) : presAB s s := presAB_of_eq rfl rfl rfl

theorem presAB_trans {a b c : State} (h1 : presAB a b) (h2 : presAB b c) : presAB a c := by
  obtain ⟨p1, q1⟩ := h1
  obtain ⟨p2, q2⟩ := h2
  refine ⟨presA_trans p1 p2, fun hb => ?_⟩
  obtain ⟨a1, a2, a3⟩ := q1 hb
  obtain ⟨b1, b2, b3⟩ := q2 a3
  exact ⟨fun k e hk => b1 k e (a1 k e hk), Nat.le_trans a2 b2, b3⟩

theorem pluginFold_rel {R : State → State → Prop} (hrefl : ∀ s, R s s)
    (htrans : ∀ {a b c : State}, R a b → R b c → R a c) (g : Plugin → State → State) :
    ∀ (ps : List (Option Plugin)), (∀ p, some p ∈ ps → ∀ s, R s (g p s)) →
      ∀ s, R s (pluginFold g ps s) := by
  intro ps
  induction ps with
  | nil => intro _ s; exact hrefl s
  | cons op rest ih =>
    intro h s
    cases op with
    | none => exact ih (fun p hp => h p (List.mem_cons_of_mem _ hp)) s
    | some p =>
      exact htrans (h p (List.mem_cons_self _ _) s)
        (ih (fun q hq => h q (List.mem_cons_of_mem _ hq)) (g p s))

theorem presAB_hook {c : Ctx} (hq : AtomQuiet c) (e : Expr) :
    ∀ p, some p ∈ c.plugins → ∀ s, presAB s (p.registerTerm e s) := by
  intro p hp s
  obtain ⟨h1, h2, h3⟩ := hq p hp e s
  exact presAB_of_eq h1 h2 h3

theorem presAB_ctxRT {c : Ctx} (hq : AtomQuiet c) (e : Expr) (s : State) :
    presAB s (ctxRegisterTerm c e s) :=
  pluginFold_rel presAB_refl presAB_trans _ c.plugins (presAB_hook hq e) s

theorem presAB_alloc (s : State) (e : Expr) (h : s.a2b.lookup e.eid = none) :
    presAB s (registerAtom s.numVars e { s with numVars := s.numVars + 1 }) := by
  constructor
  · intro k w hk
    have hne : k ≠ e.eid := by
      intro hcontra
      rw [hcontra, h] at hk
      exact Option.noConfusion hk
    show List.lookup k ((e.eid, s.numVars) :: s.a2b) = some w
    rw [lookupTail hne]
    exact hk
  · intro hb
    refine ⟨?_, Nat.le_succ _, ?_⟩
    · intro k w hk
      have hne : k ≠ s.numVars := by
        intro hcontra
        exact absurd (hb k w hk) (by rw [hcontra]; exact Nat.lt_irrefl _)
      show List.lookup k ((s.numVars, e) :: s.atoms) = some w
      rw [lookupTail hne]
      exact hk
    · intro k w hk
      show k < s.numVars + 1
      rcases eq_or_ne k s.numVars with hk2 | hk2
      · rw [hk2]; exact Nat.lt_succ_self _
      · have : List.lookup k s.atoms = some w := by
          have := hk
          rwa [show ({ s with numVars := s.numVars + 1 } : State).atoms = s.atoms from rfl,
            show (registerAtom s.numVars e { s with numVars := s.numVars + 1 }).atoms
              = (s.numVars, e) :: s.atoms from rfl, lookupTail hk2] at this
        exact Nat.lt_succ_of_lt (hb k w this)

theorem findMin_mem {prio : Nat → Nat} :
    ∀ {l : List Nat} {m : Nat}, findMin prio l = some m → m ∈ l := by
  intro l
  induction l with
  | nil => intro m h; simp [findMin] at h
  | cons x xs ih =>
    intro m h
    unfold findMin at h
    cases hf : findMin prio xs with
    | none =>
      rw [hf] at h
      simp only [Option.some.injEq] at h
      subst h
      exact List.mem_cons_self _ _
    | some y =>
      rw [hf] at h
      simp only [Option.some.injEq] at h
      by_cases hc : prio x ≤ prio y
      · rw [if_pos hc] at h
        subst h
        exact List.mem_cons_self _ _
      · rw [if_neg hc] at h
        subst h
        exact List.mem_cons_of_mem _ (ih hf)

theorem eraseMin_some {prio : Nat → Nat} {l : List Nat} {x : Nat} {r : List Nat}
    (h : eraseMin prio l = some (x, r)) : x ∈ l ∧ r = l.erase x := by
  unfold eraseMin at h
  cases hf : findMin prio l with
  | none => rw [hf] at h; simp at h
  | some m =>
    rw [hf] at h
    simp only [Option.some.injEq, Prod.mk.injEq] at h
    obtain ⟨h1, h2⟩ := h
    subst h1
    exact ⟨findMin_mem hf, h2.symm⟩

/-! ## Claims -/

/-- C10: get_fid of an equality application returns the family id of the sort
of its first argument (so equality atoms are dispatched to the plugin of the
argument theory), and get_fid of a non-application term is null_family_id. -/
theorem claim_c10 :
    (∀ a b : Expr, getFid (.eeq a b) = a.sortFid) ∧
    (∀ (srt : Int) (n : Nat), getFid (.evar srt n) = nullFamilyId) :=
  ⟨fun _ _ => rfl, fun _ _ => rfl⟩

/-- C9: context::is_true(expr*) is total (it is a plain Lean function): when
the atom is mapped it returns whether the basic plugin's value of the term is
the true constant, and when the atom is unmapped the fallback into the
is_true(bool_var) overload at sat::null_bool_var is a no-op special case
(returning false) rather than an infinite recursion. -/
theorem claim_c9 (c : Ctx) (s : State) (e : Expr) :
    (∀ p v, pluginsGet c.plugins basicFamilyId = some p →
      s.a2b.lookup e.eid = some v →
      isTrueExpr c s e = (p.getValue e s).isTrueConst) ∧
    (s.a2b.lookup e.eid = none → isTrueExpr c s e = false) := by
  constructor
  · intro p v hp hv
    unfold isTrueExpr
    rw [hv, hp]
  · intro hv
    unfold isTrueExpr
    rw [hv]

/-- Witness for C9 at a concrete unmapped atom. -/
theorem claim_c9_witness : isTrueExpr c0 s0 (ubc 0) = false :=
  (claim_c9 c0 s0 (ubc 0)).2 rfl

theorem checkLoop_ne_lfalse (c : Ctx) : ∀ fuel s, (checkLoop c fuel s).1 ≠ Lbool.lfalse := by
  intro fuel
  induction fuel with
  | zero => intro s; simp [checkLoop]
  | succ f ih =>
    intro s
    simp only [checkLoop]
    split
    · simp
    · split
      · simp
      · split
        · simp
        · split
          · simp
          · exact ih _

/-- C1: context::check never returns l_false: every invocation yields l_true
or l_undef; in particular the fuel-out and resource-out paths, a non-empty
external unsat() set, and a new constraint raised during the round each yield
l_undef. -/
theorem claim_c1 :
    (∀ c fuel s, (check c fuel s).1 = Lbool.ltrue ∨ (check c fuel s).1 = Lbool.lundef) ∧
    (∀ c s, (checkLoop c 0 s).1 = Lbool.lundef) ∧
    (∀ c fuel s, s.unsatSet ≠ [] → (checkLoop c (fuel + 1) s).1 = Lbool.lundef) ∧
    (∀ c fuel s, s.unsatSet = [] → s.resource = 0 →
      (checkLoop c (fuel + 1) s).1 = Lbool.lundef) ∧
    (∀ c fuel s, s.unsatSet = [] → 0 < s.resource →
      (pba c fuel { s with resource := s.resource - 1 }).newConstraint = true →
      (checkLoop c (fuel + 1) s).1 = Lbool.lundef) := by
  refine ⟨?_, ?_, ?_, ?_, ?_⟩
  · intro c fuel s
    have h := checkLoop_ne_lfalse c fuel (init c fuel s)
    unfold check
    cases hv : (checkLoop c fuel (init c fuel s)).1 with
    | lfalse => exact absurd hv h
    | ltrue => exact Or.inl rfl
    | lundef => exact Or.inr rfl
  · intro c s; rfl
  · intro c fuel s h
    rw [checkLoop]
    rw [if_pos h]
  · intro c fuel s h hr
    rw [checkLoop, if_neg (by simp [h]), inc, if_pos hr]
    simp
  · intro c fuel s h hr hc
    rw [checkLoop, if_neg (by simp [h]), inc, if_neg (Nat.pos_iff_ne_zero.mp hr)]
    simp [hc]

/-- Witness for C1's conditional branches at a concrete state with a non-empty
unsat set. -/
theorem claim_c1_witness :
    (checkLoop c0 1 { s0 with unsatSet := [0] }).1 = Lbool.lundef :=
  claim_c1.2.2.1 c0 0 _ (by decide)

/-- C4: during worklist draining, a repair_down failure on an application term
whose id is not scheduled for repair-up (and whose plugin call left the
repair-down worklist as the erase_min left it) puts the id into repair-up and
leaves it absent from repair-down. -/
theorem claim_c4 (c : Ctx) (s : State) (id : Nat) (rest : List Nat) (e : Expr)
    (p : Plugin) (t : State)
    (hnd : s.repairDown.Nodup)
    (hmin : eraseMin c.pdown s.repairDown = some (id, rest))
    (hterm : termOf s id = some e)
    (happ : e.isApp = true)
    (hp : pluginsGet c.plugins (getFid e) = some p)
    (hcall : p.repairDown e { s with repairDown := rest, statsDown := s.statsDown + 1 }
      = (t, false))
    (hup : id ∉ t.repairUp)
    (hkeep : t.repairDown = rest) :
    id ∈ (downStep c s).repairUp ∧ id ∉ (downStep c s).repairDown := by
  obtain ⟨hmem, hrest⟩ := eraseMin_some hmin
  have hidrest : id ∉ rest := by
    rw [hrest]
    intro hcontra
    exact ((hnd.mem_erase_iff).mp hcontra).1 rfl
  unfold downStep
  rw [hmin]
  dsimp only
  unfold termOf
  unfold termOf at hterm
  dsimp only
  rw [hterm]
  dsimp only
  rw [if_pos happ, hp]
  dsimp only
  rw [hcall]
  dsimp only
  rw [if_pos ⟨rfl, hup⟩]
  refine ⟨mem_iInsert_self id t.repairUp, ?_⟩
  simpa [hkeep] using hidrest

/-- Witness for C4: the fail-only plugin on a registered basic application. -/
theorem claim_c4_witness :
    (bapp 9).eid ∈ (downStep cFail sW4).repairUp ∧
    (bapp 9).eid ∉ (downStep cFail sW4).repairDown :=
  claim_c4 cFail sW4 (bapp 9).eid [] (bapp 9) failPlugin
    { sW4 with repairDown := [], statsDown := sW4.statsDown + 1 }
    (by decide) (by decide) rfl rfl rfl rfl (by decide) rfl

theorem presAB_clause (cl : List Lit) (t : State) : presAB t (addSolverClause cl t) :=
  presAB_of_eq rfl rfl rfl

theorem presAB_allterms {s t : State} (e : Expr) (h : presAB s t) :
    presAB s { t with allterms := (e.eid, e) :: t.allterms } := h

theorem presAB_parentsStep {s t : State} (e : Expr) (h : presAB s t) :
    presAB s (addParentLinks e t) := h

theorem presAB_family (c : Ctx) (hq : AtomQuiet c) :
    ∀ fuel : Nat,
      (∀ s e, presAB s (mkLiteral c fuel s e).2) ∧
      (∀ lit s args, presAB s (tseitinAnd c fuel lit s args).2) ∧
      (∀ lit s args, presAB s (tseitinOr c fuel lit s args).2) ∧
      (∀ s args, presAB s (mkLits c fuel s args).2) ∧
      (∀ s f, presAB s (addClauseExpr c fuel s f)) ∧
      (∀ s args, presAB s (addAll c fuel s args)) ∧
      (∀ s args, presAB s (addNegAll c fuel s args)) ∧
      (∀ s e, presAB s (registerTerms c fuel s e)) ∧
      (∀ s, presAB s (rtLoop c fuel s)) := by
  intro fuel
  induction fuel with
  | zero =>
    refine ⟨?_, ?_, ?_, ?_, ?_, ?_, ?_, ?_, ?_⟩
    · intro s e
      cases h : s.a2b.lookup (stripNot e).1.eid with
      | some v => simp only [mkLiteral, h]; exact presAB_refl s
      | none => simp only [mkLiteral, h]; exact presAB_refl s
    · intro lit s args; simp only [tseitinAnd]; exact presAB_refl s
    · intro lit s args; simp only [tseitinOr]; exact presAB_refl s
    · intro s args; simp only [mkLits]; exact presAB_refl s
    · intro s f0; simp only [addClauseExpr]; exact presAB_refl s
    · intro s args; simp only [addAll]; exact presAB_refl s
    · intro s args; simp only [addNegAll]; exact presAB_refl s
    · intro s e
      unfold registerTerms
      split
      · exact presAB_refl s
      · dsimp only
        split
        · exact presAB_of_eq rfl rfl rfl
        · exact presAB_of_eq rfl rfl rfl
    · intro s; simp only [rtLoop]; exact presAB_refl s
  | succ f ih =>
    obtain ⟨ih1, ih2, ih3, ih4, ih5, ih6, ih7, ih8, ih9⟩ := ih
    refine ⟨?_, ?_, ?_, ?_, ?_, ?_, ?_, ?_, ?_⟩
    · -- mkLiteral
      intro s e
      cases h : s.a2b.lookup (stripNot e).1.eid with
      | some v => simp only [mkLiteral, h]; exact presAB_refl s
      | none =>
        have halloc : presAB s
            (registerAtom s.numVars (stripNot e).1 { s with numVars := s.numVars + 1 }) :=
          presAB_alloc s _ h
        simp only [mkLiteral, h]
        generalize hs1 :
          registerAtom s.numVars (stripNot e).1 { s with numVars := s.numVars + 1 } = s1
        rw [hs1] at halloc
        generalize (stripNot e).1 = en1
        refine presAB_trans halloc ?_
        split
        · exact presAB_clause _ _
        · exact presAB_clause _ _
        · exact presAB_trans (ih2 _ _ _) (presAB_clause _ _)
        · exact presAB_trans (ih3 _ _ _) (presAB_clause _ _)
        · split
          · exact presAB_trans (ih1 _ _) (presAB_trans (ih1 _ _)
              (presAB_trans (presAB_clause _ _) (presAB_trans (presAB_clause _ _)
                (presAB_trans (presAB_clause _ _) (presAB_clause _ _)))))
          · exact ih8 _ _
        · exact presAB_trans (ih1 _ _) (presAB_trans (ih1 _ _)
            (presAB_trans (presAB_clause _ _) (presAB_trans (presAB_clause _ _)
              (presAB_trans (presAB_clause _ _) (presAB_clause _ _)))))
        · exact presAB_trans (ih1 _ _) (presAB_trans (ih1 _ _) (presAB_trans (ih1 _ _)
            (presAB_trans (presAB_clause _ _) (presAB_trans (presAB_clause _ _)
              (presAB_trans (presAB_clause _ _) (presAB_clause _ _))))))
        · exact ih8 _ _
    · -- tseitinAnd
      intro lit s args
      cases args with
      | nil => simp only [tseitinAnd]; exact presAB_refl s
      | cons a rest =>
        simp only [tseitinAnd]
        exact presAB_trans (ih1 _ _) (presAB_trans (presAB_clause _ _) (ih2 _ _ _))
    · -- tseitinOr
      intro lit s args
      cases args with
      | nil => simp only [tseitinOr]; exact presAB_refl s
      | cons a rest =>
        simp only [tseitinOr]
        exact presAB_trans (ih1 _ _) (presAB_trans (presAB_clause _ _) (ih3 _ _ _))
    · -- mkLits
      intro s args
      cases args with
      | nil => simp only [mkLits]; exact presAB_refl s
      | cons a rest =>
        simp only [mkLits]
        exact presAB_trans (ih1 _ _) (ih4 _ _)
    · -- addClauseExpr
      intro s f0
      have unit : ∀ (t : State) (g : Expr) (b : Bool),
          presAB t (addSolverClause [if b then negL (mkLiteral c f t g).1
            else (mkLiteral c f t g).1] (mkLiteral c f t g).2) :=
        fun t g b => presAB_trans (ih1 t g) (presAB_clause _ _)
      cases f0 with
      | enot g =>
        cases g with
        | enot g2 => simp only [addClauseExpr]; exact ih5 _ _
        | eor args => simp only [addClauseExpr]; exact ih7 _ _
        | eand args =>
          simp only [addClauseExpr]
          exact presAB_trans (ih4 _ _) (presAB_clause _ _)
        | eeq a b =>
          simp only [addClauseExpr]
          split
          · exact presAB_trans (ih1 _ _) (presAB_trans (ih1 _ _)
              (presAB_trans (presAB_clause _ _) (presAB_clause _ _)))
          · exact presAB_trans (ih1 _ _) (presAB_clause _ _)
        | eite g2 h2 k2 =>
          simp only [addClauseExpr]
          exact presAB_trans (ih1 _ _) (presAB_trans (ih1 _ _) (presAB_trans (ih1 _ _)
            (presAB_trans (presAB_clause _ _) (presAB_clause _ _))))
        | etrue => simp only [addClauseExpr]; exact presAB_trans (ih1 _ _) (presAB_clause _ _)
        | efalse => simp only [addClauseExpr]; exact presAB_trans (ih1 _ _) (presAB_clause _ _)
        | exor a b => simp only [addClauseExpr]; exact presAB_trans (ih1 _ _) (presAB_clause _ _)
        | eapp fid srt d args =>
          simp only [addClauseExpr]; exact presAB_trans (ih1 _ _) (presAB_clause _ _)
        | evar srt n =>
          simp only [addClauseExpr]; exact presAB_trans (ih1 _ _) (presAB_clause _ _)
      | eor args =>
        simp only [addClauseExpr]
        exact presAB_trans (ih4 _ _) (presAB_clause _ _)
      | eand args => simp only [addClauseExpr]; exact ih6 _ _
      | eeq a b =>
        simp only [addClauseExpr]
        split
        · exact presAB_trans (ih1 _ _) (presAB_trans (ih1 _ _)
            (presAB_trans (presAB_clause _ _) (presAB_clause _ _)))
        · exact presAB_trans (ih1 _ _) (presAB_clause _ _)
      | eite g2 h2 k2 =>
        simp only [addClauseExpr]
        exact presAB_trans (ih1 _ _) (presAB_trans (ih1 _ _) (presAB_trans (ih1 _ _)
          (presAB_trans (presAB_clause _ _) (presAB_clause _ _))))
      | etrue => simp only [addClauseExpr]; exact presAB_trans (ih1 _ _) (presAB_clause _ _)
      | efalse => simp only [addClauseExpr]; exact presAB_trans (ih1 _ _) (presAB_clause _ _)
      | exor a b => simp only [addClauseExpr]; exact presAB_trans (ih1 _ _) (presAB_clause _ _)
      | eapp fid srt d args =>
        simp only [addClauseExpr]; exact presAB_trans (ih1 _ _) (presAB_clause _ _)
      | evar srt n =>
        simp only [addClauseExpr]; exact presAB_trans (ih1 _ _) (presAB_clause _ _)
    · -- addAll
      intro s args
      cases args with
      | nil => simp only [addAll]; exact presAB_refl s
      | cons a rest =>
        simp only [addAll]
        exact presAB_trans (ih5 _ _) (ih6 _ _)
    · -- addNegAll
      intro s args
      cases args with
      | nil => simp only [addNegAll]; exact presAB_refl s
      | cons a rest =>
        simp only [addNegAll]
        exact presAB_trans (ih5 _ _) (ih7 _ _)
    · -- registerTerms
      intro s e
      unfold registerTerms
      split
      · exact presAB_refl s
      · dsimp only
        split
        · exact presAB_of_eq rfl rfl rfl
        · refine presAB_trans ?_ (ih9 _)
          exact presAB_of_eq rfl rfl rfl
    · -- rtLoop
      intro s
      unfold rtLoop
      cases hl : s.todo.getLast? with
      | none => exact presAB_refl s
      | some e =>
        dsimp only
        split
        · refine presAB_trans ?_ (ih9 _)
          exact presAB_of_eq rfl rfl rfl
        · split
          · split
            · refine presAB_trans ?_ (ih9 _)
              refine presAB_allterms e ?_
              refine presAB_trans ?_ (presAB_ctxRT hq e _)
              split
              · refine presAB_trans ?_ (ih1 _ _)
                refine presAB_parentsStep e ?_
                exact presAB_of_eq rfl rfl rfl
              · refine presAB_parentsStep e ?_
                exact presAB_of_eq rfl rfl rfl
            · refine presAB_trans ?_ (ih9 _)
              exact presAB_of_eq rfl rfl rfl
          · refine presAB_trans ?_ (ih9 _)
            refine presAB_allterms e ?_
            refine presAB_trans ?_ (presAB_ctxRT hq e _)
            exact presAB_of_eq rfl rfl rfl

theorem mkLiteral_registers (c : Ctx) (hq : AtomQuiet c) (f : Nat) (s : State) (e : Expr)
    (h : s.a2b.lookup (stripNot e).1.eid = none) :
    (mkLiteral c (f + 1) s e).1 = ⟨s.numVars, (stripNot e).2⟩ ∧
    (mkLiteral c (f + 1) s e).2.a2b.lookup (stripNot e).1.eid = some s.numVars := by
  obtain ⟨f1, f2, f3, f4, f5, f6, f7, f8, f9⟩ := presAB_family c hq f
  simp only [mkLiteral, h]
  constructor
  · cases hb : (stripNot e).2 <;> simp [polarity, negL]
  · generalize hen : (stripNot e).1 = en1 at h ⊢
    have hbase : (registerAtom s.numVars en1 { s with numVars := s.numVars + 1 }).a2b.lookup
        en1.eid = some s.numVars := lookupHead _ _ _
    generalize hs1 : registerAtom s.numVars en1 { s with numVars := s.numVars + 1 } = s1
    rw [hs1] at hbase
    cases en1 with
    | etrue => exact hbase
    | efalse => exact hbase
    | eand args => exact (f2 _ s1 args).1 _ _ hbase
    | eor args => exact (f3 _ s1 args).1 _ _ hbase
    | eeq a b =>
      dsimp only
      split
      · exact (presA_trans (f1 s1 a).1 (f1 _ b).1) _ _ hbase
      · exact (f8 s1 _).1 _ _ hbase
    | exor a b => exact (presA_trans (f1 s1 a).1 (f1 _ b).1) _ _ hbase
    | eite a b k =>
      exact (presA_trans (f1 s1 a).1 (presA_trans (f1 _ b).1 (f1 _ k).1)) _ _ hbase
    | enot g => exact (f8 s1 _).1 _ _ hbase
    | eapp fid srt d args => exact (f8 s1 _).1 _ _ hbase
    | evar srt n => exact (f8 s1 _).1 _ _ hbase

/-- C3: mk_literal is idempotent.  The second call on the same (possibly
negation-wrapped) term returns the same literal (same Boolean variable,
polarity the parity of the stripped negations) and leaves the state untouched:
no variable is allocated and no clause is added, because the atom-existence
check short-circuits the encoding recursion. -/
theorem claim_c3 (c : Ctx) (hq : AtomQuiet c) (f₁ f₂ : Nat) (s : State) (e : Expr)
    (hf : 0 < f₁) :
    mkLiteral c f₂ (mkLiteral c f₁ s e).2 e = mkLiteral c f₁ s e ∧
    (mkLiteral c f₁ s e).1.sign = (stripNot e).2 := by
  cases h : s.a2b.lookup (stripNot e).1.eid with
  | some v =>
    have h1 : mkLiteral c f₁ s e = (⟨v, (stripNot e).2⟩, s) := by
      rw [mkLiteral.eq_def]
      dsimp only
      rw [h]
    rw [h1]
    constructor
    · have h2 : mkLiteral c f₂ s e = (⟨v, (stripNot e).2⟩, s) := by
        rw [mkLiteral.eq_def]
        dsimp only
        rw [h]
      exact h2
    · rfl
  | none =>
    obtain ⟨f₁', rfl⟩ : ∃ g, f₁ = g + 1 := ⟨f₁ - 1, (Nat.succ_pred_eq_of_pos hf).symm⟩
    obtain ⟨hlit, hreg⟩ := mkLiteral_registers c hq f₁' s e h
    refine ⟨?_, by rw [hlit]⟩
    set S := (mkLiteral c (f₁' + 1) s e).2 with hS
    have h2 : mkLiteral c f₂ S e = (⟨s.numVars, (stripNot e).2⟩, S) := by
      rw [mkLiteral.eq_def]
      dsimp only
      rw [hreg]
    rw [h2, ← hlit, hS]

/-- Witness for C3 on a negated uninterpreted Boolean constant. -/
theorem claim_c3_witness :
    mkLiteral c0 7 (mkLiteral c0 1 s0 (.enot (ubc 5))).2 (.enot (ubc 5))
      = mkLiteral c0 1 s0 (.enot (ubc 5)) ∧
    (mkLiteral c0 1 s0 (.enot (ubc 5))).1.sign = (stripNot (.enot (ubc 5))).2 :=
  claim_c3 c0 (fun p hp => absurd hp (List.not_mem_nil _)) 1 7 s0 (.enot (ubc 5))
    (by decide)

/-- C6 (amended): once a term is mapped to a Boolean variable, the context's
own operations (mk_literal, add_clause, add_constraint, register_terms) never
rebind the term to another variable nor the variable to another term; only a
direct external register_atom call can overwrite a binding. -/
theorem claim_c6_theorem (c : Ctx) (hq : AtomQuiet c) (fuel : Nat) (ops : List COp) :
    (∀ op ∈ ops, op.isRegAtom = false) → ∀ s, presAB s (applyOps c fuel ops s) := by
  induction ops with
  | nil => intro _ s; exact presAB_refl s
  | cons op rest ih =>
    intro hops s
    have h1 : presAB s (applyOp c fuel op s) := by
      cases op with
      | mkLit e => exact (presAB_family c hq fuel).1 s e
      | addCl e => exact (presAB_family c hq fuel).2.2.2.2.1 s e
      | addConstr e => exact (presAB_family c hq fuel).2.2.2.2.1 s e
      | regTerms e => exact (presAB_family c hq fuel).2.2.2.2.2.2.2.1 s e
      | regAtom v e =>
        have hcontra := hops (.regAtom v e) (List.mem_cons_self _ _)
        simp [COp.isRegAtom] at hcontra
    exact presAB_trans h1 (ih (fun o ho => hops o (List.mem_cons_of_mem _ ho)) _)

/-- Witness for C6's amended theorem on a one-operation trace. -/
theorem claim_c6_witness : presAB s0 (applyOps c0 1 [.mkLit (ubc 6)] s0) :=
  claim_c6_theorem c0 (fun p hp => absurd hp (List.not_mem_nil _)) 1 [.mkLit (ubc 6)]
    (fun op ho => by rcases List.mem_singleton.mp ho with rfl; rfl) s0

theorem tame2_refl (s : State) : Tame2 s s := ⟨Nat.le_refl _, fun h => h⟩

theorem tame2_trans {a b c : State} (h1 : Tame2 a b) (h2 : Tame2 b c) : Tame2 a c :=
  ⟨Nat.le_trans h2.1 h1.1, fun h => h2.2 (h1.2 h)⟩

theorem tame2_fields {s t : State} (h1 : t.resource = s.resource)
    (h2 : t.newConstraint = s.newConstraint) : Tame2 s t :=
  ⟨Nat.le_of_eq h1, fun h => by rw [h2, h]⟩

theorem mtame_to {f : State → State} (h : MTame f) (s : State) : Tame2 s (f s) :=
  ⟨(h s).1, (h s).2⟩

theorem postOk_refl (s : State) : PostOk s s := ⟨rfl, rfl, Nat.le_refl _, fun h => h⟩

theorem postOk_trans {a b c : State} (h1 : PostOk a b) (h2 : PostOk b c) : PostOk a c :=
  ⟨h2.1.trans h1.1, h2.2.1.trans h1.2.1, Nat.le_trans h2.2.2.1 h1.2.2.1,
    fun h => h2.2.2.2 (h1.2.2.2 h)⟩

theorem pluginsGet_mem {ps : List (Option Plugin)} {fid : Int} {p : Plugin}
    (h : pluginsGet ps fid = some p) : some p ∈ ps := by
  unfold pluginsGet at h
  split at h
  · exact Option.noConfusion h
  · split at h
    · rename_i op hg
      rw [h] at hg
      exact List.get?_mem hg
    · exact Option.noConfusion h

theorem reinitLoop_fields : ∀ (cls : List (List Lit)) (s : State),
    (reinitLoop cls s).resource = s.resource ∧
    (reinitLoop cls s).newConstraint = s.newConstraint := by
  intro cls
  induction cls with
  | nil => intro s; exact ⟨rfl, rfl⟩
  | cons cl rest ih =>
    intro s
    simp only [reinitLoop]
    constructor
    · rw [(ih _).1]
      split
      · rfl
      · split
        · rfl
        · rfl
    · rw [(ih _).2]
      split
      · rfl
      · split
        · rfl
        · rfl

theorem reinit_tame (s : State) : Tame2 s (reinitRelevant s) := by
  unfold reinitRelevant
  dsimp only
  exact tame2_fields (reinitLoop_fields _ _).1 (reinitLoop_fields _ _).2

theorem startProp_tame {c : Ctx} (ht : CtxTame c) (s : State) :
    Tame2 s (pluginFold (fun p s => p.startPropagation s) c.plugins s) :=
  pluginFold_rel tame2_refl tame2_trans _ c.plugins
    (fun p hp s => mtame_to ((ht p hp).1) s) s

theorem propLit_tame {c : Ctx} (ht : CtxTame c) (l : Lit) (s : State) :
    Tame2 s (propagateLiteral c l s) := by
  unfold propagateLiteral
  split
  · exact tame2_refl s
  · split
    · exact tame2_refl s
    · split
      · exact tame2_refl s
      · rename_i a ha p hp
        exact mtame_to ((ht p (pluginsGet_mem hp)).2.1 l) s

theorem propRootLits_tame {c : Ctx} (ht : CtxTame c) :
    ∀ (lits : List Lit) (s : State), Tame2 s (propagateRootLits c lits s) := by
  intro lits
  induction lits with
  | nil => intro s; exact tame2_refl s
  | cons l rest ih =>
    intro s
    simp only [propagateRootLits]
    exact tame2_trans (propLit_tame ht l s) (ih _)

theorem downStep_tame {c : Ctx} (ht : CtxTame c) (s : State) : Tame2 s (downStep c s) := by
  unfold downStep
  split
  · exact tame2_refl s
  · rename_i id rest hmin
    dsimp only
    have h0 : Tame2 s ({ s with repairDown := rest }) := tame2_fields rfl rfl
    have h1 : Tame2 s ({ s with repairDown := rest, statsDown := s.statsDown + 1 }) :=
      tame2_fields rfl rfl
    split
    · exact h0
    · rename_i e he
      split
      · split
        · exact h1
        · rename_i p hp
          have h2 : Tame2 s
              (p.repairDown e { s with repairDown := rest, statsDown := s.statsDown + 1 }).1 :=
            tame2_trans h1 (mtame_to ((ht p (pluginsGet_mem hp)).2.2.1 e)
              { s with repairDown := rest, statsDown := s.statsDown + 1 })
          split
          · exact h2
          · exact h2
      · exact h0

theorem upStep_tame {c : Ctx} (ht : CtxTame c) (s : State) : Tame2 s (upStep c s) := by
  unfold upStep
  split
  · exact tame2_refl s
  · rename_i id rest hmin
    dsimp only
    have h1 : Tame2 s ({ s with repairUp := rest, statsUp := s.statsUp + 1 }) :=
      tame2_fields rfl rfl
    split
    · exact h1
    · rename_i e he
      split
      · split
        · exact h1
        · rename_i p hp
          exact tame2_trans h1 (mtame_to ((ht p (pluginsGet_mem hp)).2.2.2.1 e)
            { s with repairUp := rest, statsUp := s.statsUp + 1 })
      · exact h1

theorem downDrain_tame {c : Ctx} (ht : CtxTame c) :
    ∀ (fuel : Nat) (s : State), Tame2 s (downDrain c fuel s) := by
  intro fuel
  induction fuel with
  | zero => intro s; exact tame2_refl s
  | succ f ih =>
    intro s
    simp only [downDrain]
    split
    · exact tame2_refl s
    · split
      · exact tame2_refl s
      · unfold inc
        split
        · dsimp only
          exact tame2_refl s
        · dsimp only
          have hdec : Tame2 s ({ s with resource := s.resource - 1 } : State) :=
            ⟨Nat.sub_le _ _, fun h => h⟩
          exact tame2_trans hdec (tame2_trans (downStep_tame ht _) (ih _))

theorem upDrain_tame {c : Ctx} (ht : CtxTame c) :
    ∀ (fuel : Nat) (s : State), Tame2 s (upDrain c fuel s) := by
  intro fuel
  induction fuel with
  | zero => intro s; exact tame2_refl s
  | succ f ih =>
    intro s
    simp only [upDrain]
    split
    · exact tame2_refl s
    · split
      · exact tame2_refl s
      · unfold inc
        split
        · dsimp only
          exact tame2_refl s
        · dsimp only
          have hdec : Tame2 s ({ s with resource := s.resource - 1 } : State) :=
            ⟨Nat.sub_le _ _, fun h => h⟩
          exact tame2_trans hdec (tame2_trans (upStep_tame ht _) (ih _))

theorem drainOuter_tame {c : Ctx} (ht : CtxTame c) :
    ∀ (fuel : Nat) (s : State), Tame2 s (drainOuter c fuel s) := by
  intro fuel
  induction fuel with
  | zero => intro s; exact tame2_refl s
  | succ f ih =>
    intro s
    simp only [drainOuter]
    split
    · exact tame2_refl s
    · unfold inc
      split
      · dsimp only
        exact tame2_refl s
      · dsimp only
        have hdec : Tame2 s ({ s with resource := s.resource - 1 } : State) :=
          ⟨Nat.sub_le _ _, fun h => h⟩
        rw [if_neg (show ¬((true : Bool) = false) by decide)]
        split
        · exact hdec
        · exact tame2_trans hdec (tame2_trans (downDrain_tame ht f _)
            (tame2_trans (upDrain_tame ht f _) (ih _)))

theorem repairLits_post {c : Ctx} (ht : CtxTame c) (hw : CtxKeepsWL c) :
    ∀ (fuel v : Nat) (s : State), PostOk s (repairLitsLoop c fuel v s) := by
  intro fuel
  induction fuel with
  | zero => intro v s; exact postOk_refl s
  | succ f ih =>
    intro v s
    simp only [repairLitsLoop]
    split
    · refine postOk_trans ?_ (ih _ _)
      split
      · exact postOk_refl s
      · rename_i a ha
        split
        · exact postOk_refl s
        · rename_i p hp
          have hm := pluginsGet_mem hp
          refine ⟨((hw p hm).1 _ s).1, ((hw p hm).1 _ s).2, ?_, ?_⟩
          · exact (((ht p hm).2.2.2.2.1 _) s).1
          · exact (((ht p hm).2.2.2.2.1 _) s).2
    · exact postOk_refl s

theorem propagateRound_post {ps : List (Option Plugin)}
    (h : ∀ p, some p ∈ ps → PlTame p ∧ PlKeepsWL p) :
    ∀ s, PostOk s (propagateRound ps s).2 := by
  induction ps with
  | nil => intro s; exact postOk_refl s
  | cons op rest ih =>
    intro s
    cases op with
    | none =>
      exact ih (fun p hp => h p (List.mem_cons_of_mem _ hp)) s
    | some p =>
      simp only [propagateRound]
      split
      · exact ih (fun q hq => h q (List.mem_cons_of_mem _ hq)) s
      · have hm : some p ∈ some p :: rest := List.mem_cons_self _ _
        refine postOk_trans ?_ (ih (fun q hq => h q (List.mem_cons_of_mem _ hq)) _)
        refine ⟨((h p hm).2.2 s).1, ((h p hm).2.2 s).2, ?_, ?_⟩
        · exact (((h p hm).1.2.2.2.2.2) s).1
        · exact (((h p hm).1.2.2.2.2.2) s).2

theorem finalCheck_post {c : Ctx} (ht : CtxTame c) (hw : CtxKeepsWL c) :
    ∀ (fuel : Nat) (s : State), PostOk s (finalCheck c fuel s) := by
  have hps : ∀ p, some p ∈ c.plugins → PlTame p ∧ PlKeepsWL p :=
    fun p hp => ⟨ht p hp, hw p hp⟩
  intro fuel
  induction fuel with
  | zero => intro s; exact postOk_refl s
  | succ f ih =>
    intro s
    simp only [finalCheck]
    split
    · exact postOk_refl s
    · split
      · exact postOk_trans (propagateRound_post hps s) (ih _)
      · exact propagateRound_post hps s

theorem drainOuter_done {c : Ctx} (ht : CtxTame c) :
    ∀ (fuel : Nat) (s : State), s.resource < fuel →
      (drainOuter c fuel s).newConstraint = false →
      0 < (drainOuter c fuel s).resource →
      (drainOuter c fuel s).repairDown = [] ∧ (drainOuter c fuel s).repairUp = [] := by
  intro fuel
  induction fuel with
  | zero => intro s h; exact absurd h (Nat.not_lt_zero _)
  | succ f ih =>
    intro s hlt hnc hres
    simp only [drainOuter] at hnc hres ⊢
    by_cases h1 : s.newConstraint = true
    · rw [if_pos h1] at hnc
      rw [h1] at hnc
      exact Bool.noConfusion hnc
    · rw [if_neg h1] at hnc hres ⊢
      unfold inc at hnc hres ⊢
      by_cases h2 : s.resource = 0
      · rw [if_pos h2] at hnc hres ⊢
        dsimp only at hnc hres ⊢
        rw [if_pos (show (false : Bool) = false from rfl)] at hres
        rw [h2] at hres
        exact absurd hres (Nat.lt_irrefl 0)
      · rw [if_neg h2] at hnc hres ⊢
        dsimp only at hnc hres ⊢
        rw [if_neg (show ¬((true : Bool) = false) by decide)] at hnc hres ⊢
        by_cases h3 : ({ s with resource := s.resource - 1 } : State).repairUp = [] ∧
            ({ s with resource := s.resource - 1 } : State).repairDown = []
        · rw [if_pos h3] at hnc hres ⊢
          exact ⟨h3.2, h3.1⟩
        · rw [if_neg h3] at hnc hres ⊢
          refine ih _ ?_ hnc hres
          have t1 := (downDrain_tame ht f ({ s with resource := s.resource - 1 } : State)).1
          have t2 := (upDrain_tame ht f
            (downDrain c f ({ s with resource := s.resource - 1 } : State))).1
          have hball : s.resource - 1 < f := by omega
          have hd : ({ s with resource := s.resource - 1 } : State).resource
              = s.resource - 1 := rfl
          omega

/-- C5 (amended): if propagate_boolean_assignment returns without signalling a
new constraint AND the resource limit did not expire during the round (the
returned budget is still positive, with enough fuel), AND the plugins are tame
(resource-monotone, never clearing the new-constraint flag) with repair_literal
and final-check propagate leaving the worklists unchanged, then both the
repair-down and the repair-up set are empty. -/
theorem claim_c5_theorem (c : Ctx) (ht : CtxTame c) (hw : CtxKeepsWL c)
    (fuel : Nat) (s : State) (hfuel : s.resource < fuel)
    (hnc : (pba c fuel s).newConstraint = false)
    (hres : 0 < (pba c fuel s).resource) :
    (pba c fuel s).repairDown = [] ∧ (pba c fuel s).repairUp = [] := by
  have hs3 : Tame2 s (propagateRootLits c
      (pluginFold (fun p s => p.startPropagation s) c.plugins (reinitRelevant s)).rootLits
      (pluginFold (fun p s => p.startPropagation s) c.plugins (reinitRelevant s))) :=
    tame2_trans (reinit_tame s)
      (tame2_trans (startProp_tame ht _) (propRootLits_tame ht _ _))
  unfold pba at hnc hres ⊢
  dsimp only at hnc hres ⊢
  by_cases hb : (propagateRootLits c
      (pluginFold (fun p s => p.startPropagation s) c.plugins (reinitRelevant s)).rootLits
      (pluginFold (fun p s => p.startPropagation s) c.plugins (reinitRelevant s))).newConstraint
      = true
  · rw [if_pos hb] at hnc
    rw [hb] at hnc
    exact Bool.noConfusion hnc
  · rw [if_neg hb] at hnc hres ⊢
    have hpost : PostOk
        (drainOuter c fuel (propagateRootLits c
          (pluginFold (fun p s => p.startPropagation s) c.plugins (reinitRelevant s)).rootLits
          (pluginFold (fun p s => p.startPropagation s) c.plugins (reinitRelevant s))))
        (finalCheck c fuel (repairLitsLoop c fuel 0 (drainOuter c fuel (propagateRootLits c
          (pluginFold (fun p s => p.startPropagation s) c.plugins (reinitRelevant s)).rootLits
          (pluginFold (fun p s => p.startPropagation s) c.plugins (reinitRelevant s)))))) :=
      postOk_trans (repairLits_post ht hw fuel 0 _) (finalCheck_post ht hw fuel _)
    have hDnc : (drainOuter c fuel (propagateRootLits c
        (pluginFold (fun p s => p.startPropagation s) c.plugins (reinitRelevant s)).rootLits
        (pluginFold (fun p s => p.startPropagation s) c.plugins
          (reinitRelevant s)))).newConstraint = false := by
      cases hD : (drainOuter c fuel (propagateRootLits c
        (pluginFold (fun p s => p.startPropagation s) c.plugins (reinitRelevant s)).rootLits
        (pluginFold (fun p s => p.startPropagation s) c.plugins
          (reinitRelevant s)))).newConstraint
      · rfl
      · rw [hpost.2.2.2 hD] at hnc
        exact Bool.noConfusion hnc
    have hDres : 0 < (drainOuter c fuel (propagateRootLits c
        (pluginFold (fun p s => p.startPropagation s) c.plugins (reinitRelevant s)).rootLits
        (pluginFold (fun p s => p.startPropagation s) c.plugins
          (reinitRelevant s)))).resource :=
      Nat.lt_of_lt_of_le hres hpost.2.2.1
    have hfin := drainOuter_done ht fuel _ (Nat.lt_of_le_of_lt hs3.1 hfuel) hDnc hDres
    exact ⟨hpost.1.trans hfin.1, hpost.2.1.trans hfin.2⟩

/-- Witness for C5's amended theorem at a concrete tame configuration. -/
theorem claim_c5_theorem_witness :
    (pba c0 9 { s0 with resource := 3 }).repairDown = [] ∧
    (pba c0 9 { s0 with resource := 3 }).repairUp = [] :=
  claim_c5_theorem c0 (fun p hp => absurd hp (List.not_mem_nil _))
    (fun p hp => absurd hp (List.not_mem_nil _)) 9 { s0 with resource := 3 }
    (by decide) (by decide) (by decide)

/-- Counterexample for C5: when the resource limit expires with a pending
repair-down item, propagate_boolean_assignment returns without signalling a
new constraint yet with a non-empty repair-down set. -/
theorem claim_c5_counterexample :
    (pba c0 9 sW5).newConstraint = false ∧ (pba c0 9 sW5).repairDown ≠ [] := by
  decide

/-- C2: when a round of context::check reaches a state with no new constraint,
an empty unsat set and every registered (non-null) plugin reporting is_sat,
check returns l_true, and the collaborator callback s.on_model is invoked
exactly once, with exactly the model built from the registered terms
(uninterpreted constants valued through the sort-family plugin) followed by
the plugins' mk_model contributions. -/
theorem claim_c2 (c : Ctx) (fuel : Nat) (s sI s2 : State)
    (hI : init c (fuel + 1) s = sI)
    (hun : sI.unsatSet = [])
    (hr : sI.resource ≠ 0)
    (h2 : pba c fuel { sI with resource := sI.resource - 1 } = s2)
    (hnc : s2.newConstraint = false)
    (hu2 : s2.unsatSet = [])
    (hsat : allSat c.plugins s2 = true) :
    check c (fuel + 1) s = (.ltrue, s2, [buildModel c s2]) := by
  unfold check
  rw [hI]
  simp only [checkLoop]
  rw [if_neg (by simp [hun])]
  unfold inc
  rw [if_neg hr]
  dsimp only
  rw [if_neg (show ¬((true : Bool) = false) by decide)]
  rw [h2]
  rw [if_neg (by simp [hnc, hu2])]
  rw [if_pos hsat]

/-- Witness for C2: the empty-plugin context reaches l_true in one round and
invokes on_model exactly once. -/
theorem claim_c2_witness :
    check c0 1 { s0 with resource := 2 }
      = (.ltrue,
         pba c0 0 { init c0 1 { s0 with resource := 2 } with
           resource := (init c0 1 { s0 with resource := 2 }).resource - 1 },
         [buildModel c0 (pba c0 0 { init c0 1 { s0 with resource := 2 } with
           resource := (init c0 1 { s0 with resource := 2 }).resource - 1 })]) :=
  claim_c2 c0 0 { s0 with resource := 2 } _ _ rfl (by decide) (by decide) rfl
    (by decide) (by decide) (by decide)

/-- Counterexample for C6: a second external register_atom call on an already
mapped term rebinds it to a different Boolean variable (setx overwrites). -/
theorem claim_c6_counterexample :
    (applyOp c0 0 (.regAtom 0 (ubc 1)) s0).a2b.lookup (ubc 1).eid = some 0 ∧
    (applyOps c0 0 [.regAtom 0 (ubc 1), .regAtom 1 (ubc 1)] s0).a2b.lookup (ubc 1).eid
      = some 1 := by
  decide

theorem Reach_iff (roots : List Nat) (parents : Nat → List Nat) (t : Nat) :
    Reach roots parents t ↔ t ∈ roots ∨ ∃ p ∈ parents t, Reach roots parents p := by
  constructor
  · intro h
    cases h with
    | root h => exact Or.inl h
    | up hp hr => exact Or.inr ⟨_, hp, hr⟩
  · rintro (h | ⟨p, hp, hr⟩)
    · exact Reach.root h
    · exact Reach.up hp hr

theorem isRelevantList_ok (roots : List Nat) (parents : Nat → List Nat) (ht : Nat → Nat)
    (fuel : Nat)
    (IH : ∀ id s, RPre roots parents ht (ht id) s → ht id < fuel →
      RPostX roots parents none s (isRelevant parents fuel id s).2 ∧
      ((isRelevant parents fuel id s).1 = true ↔ Reach roots parents id) ∧
      ((isRelevant parents fuel id s).1 = true →
        id ∈ (isRelevant parents fuel id s).2.relevant) ∧
      ((isRelevant parents fuel id s).1 = false →
        id ∈ (isRelevant parents fuel id s).2.visited ∧
        id ∉ (isRelevant parents fuel id s).2.relevant)) :
    ∀ (ps : List Nat) (id : Nat) (s : RState),
      (∀ p ∈ ps, p ∈ parents id) → (∀ p ∈ ps, ht p < fuel) →
      (∀ p ∈ ps, ht p < ht id) →
      id ∈ s.visited → id ∉ s.relevant →
      (∀ t ∈ roots, t ∈ s.relevant) →
      (∀ t ∈ s.relevant, Reach roots parents t) →
      (∀ t ∈ s.visited, t ∉ s.relevant → ht t < ht id → ¬ Reach roots parents t) →
      (∀ t ∈ s.relevant, t ∈ s.visited ∨ t ∈ roots) →
      RPostX roots parents (some id) s (isRelevantList parents fuel id ps s).2 ∧
      ((isRelevantList parents fuel id ps s).1 = true ↔ ∃ p ∈ ps, Reach roots parents p) ∧
      ((isRelevantList parents fuel id ps s).1 = true →
        id ∈ (isRelevantList parents fuel id ps s).2.relevant) ∧
      ((isRelevantList parents fuel id ps s).1 = false →
        id ∉ (isRelevantList parents fuel id ps s).2.relevant ∧
        id ∈ (isRelevantList parents fuel id ps s).2.visited) := by
  intro ps
  induction ps with
  | nil =>
    intro id s hpar hfuel hlt hvis hnrel hroots hsound hC hD
    simp only [isRelevantList]
    refine ⟨⟨fun t h => h, fun t h => h, hsound, ?_, ?_, hD⟩, ?_, ?_, ?_⟩
    · intro t h1 h2; exact Or.inr ⟨h1, h2⟩
    · intro t h1 h2 _; exact h2
    · simp
    · intro h; exact Bool.noConfusion h
    · intro _; exact ⟨hnrel, hvis⟩
  | cons p ps' ihp =>
    intro id s hpar hfuel hlt hvis hnrel hroots hsound hC hD
    simp only [isRelevantList]
    have hpre : RPre roots parents ht (ht p) s := by
      refine ⟨hroots, hsound, ?_, hD⟩
      intro t h1 h2 h3
      exact hC t h1 h2 (Nat.lt_of_le_of_lt h3 (hlt p (List.mem_cons_self _ _)))
    obtain ⟨A1, A2, A3, A4⟩ := IH p s hpre (hfuel p (List.mem_cons_self _ _))
    obtain ⟨P1, P2, P3, P4, P5, P6⟩ := A1
    by_cases hr : (isRelevant parents fuel p s).1 = true
    · rw [if_pos hr]
      have hReachp : Reach roots parents p := A2.mp hr
      have hReachid : Reach roots parents id :=
        Reach.up (hpar p (List.mem_cons_self _ _)) hReachp
      refine ⟨⟨?_, ?_, ?_, ?_, ?_, ?_⟩, ?_, ?_, ?_⟩
      · intro t h1; exact P1 t h1
      · intro t h1; exact mem_iInsert_of_mem id (P2 t h1)
      · intro t h1
        rcases mem_of_mem_iInsert h1 with h | h
        · rw [h]; exact hReachid
        · exact P3 t h
      · intro t h1 h2
        have h3 : t ∉ (isRelevant parents fuel p s).2.relevant :=
          fun hmem => h2 (mem_iInsert_of_mem id hmem)
        exact P4 t h1 h3
      · intro t h1 h2 h3 hmem
        rcases mem_of_mem_iInsert hmem with h | h
        · exact h3 (by rw [h])
        · exact P5 t h1 h2 (by simp) h
      · intro t h1
        rcases mem_of_mem_iInsert h1 with h | h
        · exact Or.inl (by rw [h]; exact P1 id hvis)
        · exact P6 t h
      · exact ⟨fun _ => ⟨p, List.mem_cons_self _ _, hReachp⟩, fun _ => rfl⟩
      · intro _; exact mem_iInsert_self id _
      · intro h; exact Bool.noConfusion h
    · rw [if_neg hr]
      have hfalse : (isRelevant parents fuel p s).1 = false := by
        cases hv : (isRelevant parents fuel p s).1
        · rfl
        · exact absurd hv hr
      have hnp : ¬ Reach roots parents p := fun hre => hr (A2.mpr hre)
      obtain ⟨hidv, hidnr⟩ := A4 hfalse
      have hCnew : ∀ t ∈ (isRelevant parents fuel p s).2.visited,
          t ∉ (isRelevant parents fuel p s).2.relevant → ht t < ht id →
          ¬ Reach roots parents t := by
        intro t h1 h2 h3
        rcases P4 t h1 h2 with h | ⟨ha, hb⟩
        · exact h
        · exact hC t ha hb h3
      obtain ⟨B1, B2, B3, B4⟩ := ihp id (isRelevant parents fuel p s).2
        (fun q hq => hpar q (List.mem_cons_of_mem _ hq))
        (fun q hq => hfuel q (List.mem_cons_of_mem _ hq))
        (fun q hq => hlt q (List.mem_cons_of_mem _ hq))
        (P1 id hvis)
        (P5 id hvis hnrel (by simp))
        (fun t h => P2 t (hroots t h))
        P3 hCnew P6
      obtain ⟨Q1, Q2, Q3, Q4, Q5, Q6⟩ := B1
      refine ⟨⟨?_, ?_, Q3, ?_, ?_, Q6⟩, ?_, B3, B4⟩
      · intro t h1; exact Q1 t (P1 t h1)
      · intro t h1; exact Q2 t (P2 t h1)
      · intro t h1 h2
        rcases Q4 t h1 h2 with h | ⟨ha, hb⟩
        · exact Or.inl h
        · rcases P4 t ha hb with h' | h'
          · exact Or.inl h'
          · exact Or.inr h'
      · intro t h1 h2 h3
        exact Q5 t (P1 t h1) (P5 t h1 h2 (by simp)) h3
      · constructor
        · intro h
          rcases B2.mp h with ⟨q, hq, hrq⟩
          exact ⟨q, List.mem_cons_of_mem _ hq, hrq⟩
        · rintro ⟨q, hq, hrq⟩
          rcases List.mem_cons.mp hq with rfl | hq'
          · exact absurd hrq hnp
          · exact B2.mpr ⟨q, hq', hrq⟩

theorem isRelevant_ok (roots : List Nat) (parents : Nat → List Nat) (ht : Nat → Nat)
    (Hht : ∀ t, ∀ p ∈ parents t, ht p < ht t) :
    ∀ (fuel : Nat) (id : Nat) (s : RState),
      RPre roots parents ht (ht id) s → ht id < fuel →
      RPostX roots parents none s (isRelevant parents fuel id s).2 ∧
      ((isRelevant parents fuel id s).1 = true ↔ Reach roots parents id) ∧
      ((isRelevant parents fuel id s).1 = true →
        id ∈ (isRelevant parents fuel id s).2.relevant) ∧
      ((isRelevant parents fuel id s).1 = false →
        id ∈ (isRelevant parents fuel id s).2.visited ∧
        id ∉ (isRelevant parents fuel id s).2.relevant) := by
  intro fuel
  induction fuel with
  | zero => intro id s hpre h; exact absurd h (Nat.not_lt_zero _)
  | succ f ihf =>
    intro id s hpre hlt
    obtain ⟨hroots, hsound, hC, hD⟩ := hpre
    simp only [isRelevant]
    by_cases h1 : id ∈ s.relevant
    · rw [if_pos h1]
      refine ⟨⟨fun t h => h, fun t h => h, hsound, ?_, ?_, hD⟩, ?_, ?_, ?_⟩
      · intro t ha hb; exact Or.inr ⟨ha, hb⟩
      · intro t ha hb _; exact hb
      · exact ⟨fun _ => hsound id h1, fun _ => rfl⟩
      · intro _; exact h1
      · intro h; exact Bool.noConfusion h
    · rw [if_neg h1]
      by_cases h2 : id ∈ s.visited
      · rw [if_pos h2]
        have hnr : ¬ Reach roots parents id := hC id h2 h1 (Nat.le_refl _)
        refine ⟨⟨fun t h => h, fun t h => h, hsound, ?_, ?_, hD⟩, ?_, ?_, ?_⟩
        · intro t ha hb; exact Or.inr ⟨ha, hb⟩
        · intro t ha hb _; exact hb
        · exact ⟨fun h => Bool.noConfusion h, fun h => absurd h hnr⟩
        · intro h; exact Bool.noConfusion h
        · intro _; exact ⟨h2, h1⟩
      · rw [if_neg h2]
        have hidroots : id ∉ roots := fun h => h1 (hroots id h)
        have hfb : ∀ p ∈ parents id, ht p < f := fun p hp =>
          Nat.lt_of_lt_of_le (Hht id p hp) (Nat.lt_succ_iff.mp hlt)
        have hC1 : ∀ t ∈ (iInsert id s.visited), t ∉ s.relevant → ht t < ht id →
            ¬ Reach roots parents t := by
          intro t htv htr hlt2
          rcases mem_of_mem_iInsert htv with h | h
          · rw [h] at hlt2
            exact absurd hlt2 (Nat.lt_irrefl _)
          · exact hC t h htr (Nat.le_of_lt hlt2)
        have hD1 : ∀ t ∈ s.relevant, t ∈ (iInsert id s.visited) ∨ t ∈ roots := by
          intro t htr
          rcases hD t htr with h | h
          · exact Or.inl (mem_iInsert_of_mem id h)
          · exact Or.inr h
        obtain ⟨B1, B2, B3, B4⟩ := isRelevantList_ok roots parents ht f ihf
          (parents id) id { s with visited := iInsert id s.visited }
          (fun p hp => hp) hfb (fun p hp => Hht id p hp)
          (mem_iInsert_self id _) h1 hroots hsound hC1 hD1
        obtain ⟨Q1, Q2, Q3, Q4, Q5, Q6⟩ := B1
        have hresFalse : (isRelevantList parents f id (parents id)
            { s with visited := iInsert id s.visited }).1 = false →
            ¬ Reach roots parents id := by
          intro hres hre
          rcases (Reach_iff roots parents id).mp hre with h | hex
          · exact hidroots h
          · exact Bool.noConfusion (hres ▸ B2.mpr hex)
        refine ⟨⟨?_, Q2, Q3, ?_, ?_, Q6⟩, ?_, B3, ?_⟩
        · intro t hvv; exact Q1 t (mem_iInsert_of_mem id hvv)
        · intro t hvv hrr
          rcases Q4 t hvv hrr with h | ⟨ha, hb⟩
          · exact Or.inl h
          · rcases mem_of_mem_iInsert ha with h' | h'
            · left
              rw [h'] at hrr ⊢
              have hres : (isRelevantList parents f id (parents id)
                  { s with visited := iInsert id s.visited }).1 = false := by
                cases hv : (isRelevantList parents f id (parents id)
                    { s with visited := iInsert id s.visited }).1
                · rfl
                · exact absurd (B3 hv) hrr
              exact hresFalse hres
            · exact Or.inr ⟨h', hb⟩
        · intro t hvv hrr _
          have htne : t ≠ id := fun he => h2 (he ▸ hvv)
          exact Q5 t (mem_iInsert_of_mem id hvv) hrr (by simpa using htne)
        · constructor
          · intro h
            rcases B2.mp h with ⟨p, hp, hrp⟩
            exact Reach.up hp hrp
          · intro h
            rcases (Reach_iff roots parents id).mp h with h' | hex
            · exact absurd h' hidroots
            · exact B2.mpr hex
        · intro h
          obtain ⟨hnr, hvr⟩ := B4 h
          exact ⟨hvr, hnr⟩

/-- C7 (amended): during the per-round relevance walk, every term in the
relevant set is either a selected root literal's atom or in the visited set
(the root atoms seeded by reinit_relevant are in relevant without being
visited, so relevant is not a subset of visited alone); this invariant holds
in the state reinit_relevant produces and is preserved by every is_relevant
query, and a query returns true iff the term is a selected root literal's atom
or has a parent on which relevance holds (least-fixpoint Reach), provided the
parent graph is acyclic (height-decreasing towards parents) and the fuel
exceeds the height. -/
theorem claim_c7_theorem (roots : List Nat) (parents : Nat → List Nat) (ht : Nat → Nat)
    (Hht : ∀ t, ∀ p ∈ parents t, ht p < ht t) :
    RGood roots parents (RState.mk roots []) ∧
    ∀ fuel id s, RGood roots parents s → ht id < fuel →
      RGood roots parents (isRelevant parents fuel id s).2 ∧
      ((isRelevant parents fuel id s).1 = true ↔
        (id ∈ roots ∨ ∃ p ∈ parents id, Reach roots parents p)) := by
  constructor
  · refine ⟨fun t h => h, fun t h => Reach.root h, ?_, fun t h => Or.inr h⟩
    intro t h
    exact absurd h (List.not_mem_nil t)
  · intro fuel id s hg hlt
    obtain ⟨g1, g2, g3, g4⟩ := hg
    have hpre : RPre roots parents ht (ht id) s :=
      ⟨g1, g2, fun t h1 h2 _ => g3 t h1 h2, g4⟩
    obtain ⟨⟨P1, P2, P3, P4, P5, P6⟩, hiff, _, _⟩ :=
      isRelevant_ok roots parents ht Hht fuel id s hpre hlt
    constructor
    · refine ⟨fun t h => P2 t (g1 t h), P3, ?_, P6⟩
      intro t h1 h2
      rcases P4 t h1 h2 with h | ⟨ha, hb⟩
      · exact h
      · exact g3 t ha hb
    · rw [hiff]
      exact Reach_iff roots parents id

/-- Witness for C7's amended theorem on a one-root graph without parents. -/
theorem claim_c7_theorem_witness :
    RGood [0] (fun _ => []) (isRelevant (fun _ => []) 1 5 (RState.mk [0] [])).2 ∧
    ((isRelevant (fun _ => []) 1 5 (RState.mk [0] [])).1 = true ↔
      (5 ∈ ([0] : List Nat) ∨ ∃ p ∈ ([] : List Nat), Reach [0] (fun _ => []) p)) :=
  (claim_c7_theorem [0] (fun _ => []) (fun _ => 0)
    (fun t p hp => absurd hp (List.not_mem_nil _))).2 1 5 (RState.mk [0] [])
    ((claim_c7_theorem [0] (fun _ => []) (fun _ => 0)
      (fun t p hp => absurd hp (List.not_mem_nil _))).1) (by decide)

theorem contains_true {x : Nat} {l : List Nat} (h : l.contains x = true) : x ∈ l :=
  List.elem_iff.mp h

theorem contains_false {x : Nat} {l : List Nat} (h : l.contains x = false) : x ∉ l := by
  intro hm
  rw [show l.contains x = l.elem x from rfl, List.elem_iff.mpr hm] at h
  exact Bool.noConfusion h

theorem scanClause_skip (s : State) :
    ∀ (lits : List Lit) (n : Nat) (sel : Option Lit) (idx : Nat),
      (∀ l ∈ lits, candB s l = false) →
      (∀ l ∈ lits, ∀ a, s.atoms.lookup l.var = some a → litTrue s l = true →
        a.eid ∉ s.relevant) →
      scanClause s lits n sel idx = (sel, idx) := by
  intro lits
  induction lits with
  | nil => intro n sel idx _ _; rfl
  | cons l rest ih =>
    intro n sel idx hcand hnorel
    have hc := hcand l (List.mem_cons_self _ _)
    have htail1 : ∀ l' ∈ rest, candB s l' = false :=
      fun l' h => hcand l' (List.mem_cons_of_mem _ h)
    have htail2 : ∀ l' ∈ rest, ∀ a, s.atoms.lookup l'.var = some a →
        litTrue s l' = true → a.eid ∉ s.relevant :=
      fun l' h => hnorel l' (List.mem_cons_of_mem _ h)
    simp only [scanClause]
    cases ha : s.atoms.lookup l.var with
    | none => exact ih n sel idx htail1 htail2
    | some a =>
      by_cases htr : litTrue s l = true
      · exfalso
        have hnr := hnorel l (List.mem_cons_self _ _) a ha htr
        unfold candB at hc
        rw [ha, htr] at hc
        simp only [Bool.true_and, Bool.not_eq_false'] at hc
        exact hnr (contains_true hc)
      · have hf : litTrue s l = false := by
          cases hv : litTrue s l
          · rfl
          · exact absurd hv htr
        rw [hf]
        dsimp only
        rw [if_pos (show ((!false) = true) by decide)]
        exact ih n sel idx htail1 htail2

/-- C8 (amended): for every clause in which exactly one literal is a candidate
(registered atom, true, atom not yet relevant) at scan time AND no true
literal of the clause has an already relevant atom (the scan breaks and
selects nothing in that case), the reinit_relevant per-clause scan selects the
candidate as the representative root literal, for every state of the random
generator (reservoir sampling with n = 1 is deterministic). -/
theorem claim_c8_theorem (s : State) (cl : List Lit) (l : Lit)
    (hone : cl.filter (candB s) = [l])
    (hnorel : ∀ l' ∈ cl, ∀ a, s.atoms.lookup l'.var = some a → litTrue s l' = true →
      a.eid ∉ s.relevant) :
    ∀ idx, scanClause s cl 0 none idx = (some l, idx + 1) := by
  induction cl with
  | nil => exact absurd hone (by simp)
  | cons lit rest ih =>
    intro idx
    have htail2 : ∀ l' ∈ rest, ∀ a, s.atoms.lookup l'.var = some a →
        litTrue s l' = true → a.eid ∉ s.relevant :=
      fun l' h => hnorel l' (List.mem_cons_of_mem _ h)
    by_cases hct : candB s lit = true
    · have hfil : lit = l ∧ rest.filter (candB s) = [] := by
        rw [List.filter_cons, if_pos hct] at hone
        exact ⟨(List.cons.injEq _ _ _ _).mp hone |>.1, (List.cons.injEq _ _ _ _).mp hone |>.2⟩
      obtain ⟨rfl, hrest⟩ := hfil
      have hrestf : ∀ l' ∈ rest, candB s l' = false := by
        intro l' h
        cases hv : candB s l'
        · rfl
        · exfalso
          have : l' ∈ rest.filter (candB s) := List.mem_filter.mpr ⟨h, hv⟩
          rw [hrest] at this
          exact absurd this (List.not_mem_nil _)
      obtain ⟨a, ha, htr, hnc⟩ : ∃ a, s.atoms.lookup lit.var = some a ∧
          litTrue s lit = true ∧ s.relevant.contains a.eid = false := by
        unfold candB at hct
        cases ha : s.atoms.lookup lit.var with
        | none => rw [ha] at hct; exact Bool.noConfusion hct
        | some a =>
          rw [ha] at hct
          simp only [Bool.and_eq_true] at hct
          obtain ⟨h1, h2⟩ := hct
          exact ⟨a, rfl, h1, by
            cases hv : s.relevant.contains a.eid
            · rfl
            · rw [hv] at h2; exact Bool.noConfusion h2⟩
      simp only [scanClause]
      rw [ha]
      dsimp only
      rw [htr]
      rw [if_neg (by decide : ¬((!true) = true))]
      rw [if_neg (contains_false hnc)]
      rw [if_pos (show s.rnd idx % (0 + 1) = 0 from Nat.mod_one _)]
      exact scanClause_skip s rest 1 (some lit) (idx + 1) hrestf htail2
    · have hcf : candB s lit = false := by
        cases hv : candB s lit
        · rfl
        · exact absurd hv hct
      have hfil : rest.filter (candB s) = [l] := by
        rw [List.filter_cons, if_neg (by simp [hcf])] at hone
        exact hone
      have hstep : scanClause s (lit :: rest) 0 none idx
          = scanClause s rest 0 none idx := by
        simp only [scanClause]
        cases ha : s.atoms.lookup lit.var with
        | none => rfl
        | some a =>
          by_cases htr : litTrue s lit = true
          · exfalso
            have hnr := hnorel lit (List.mem_cons_self _ _) a ha htr
            unfold candB at hcf
            rw [ha, htr] at hcf
            simp only [Bool.true_and, Bool.not_eq_false'] at hcf
            exact hnr (contains_true hcf)
          · have hf : litTrue s lit = false := by
              cases hv : litTrue s lit
              · rfl
              · exact absurd hv htr
            rw [hf]
            dsimp only
            rw [if_pos (show ((!false) = true) by decide)]
      rw [hstep]
      exact ih hfil htail2 idx

/-- Witness for C8's amended theorem: a two-literal clause whose only
candidate is the second literal. -/
theorem claim_c8_theorem_witness :
    scanClause { sW8 with atoms := [(1, ubc 4)] } [⟨0, false⟩, ⟨1, false⟩] 0 none 0
      = (some ⟨1, false⟩, 1) :=
  claim_c8_theorem { sW8 with atoms := [(1, ubc 4)] } [⟨0, false⟩, ⟨1, false⟩]
    ⟨1, false⟩ (by decide) (by decide) 0

/-- Counterexample for C7: immediately after reinit_relevant the selected root
literal's atom is in the relevant set but not in the visited set, so
relevant is not a subset of visited during the relevance walk. -/
theorem claim_c7_counterexample :
    (ubc 2).eid ∈ (reinitRelevant sW7).relevant ∧
    (ubc 2).eid ∉ (reinitRelevant sW7).visited := by
  decide

/-- Counterexample for C8: in the second clause of sW8 exactly one literal is
a candidate (atom registered, true, not yet relevant) at scan time, yet the
clause scan breaks on the first true literal whose atom is already relevant
(from the first clause) and selects nothing, so the candidate literal is not a
root literal. -/
theorem claim_c8_counterexample :
    ([⟨0, false⟩, ⟨1, false⟩] : List Lit).filter (candB sW8mid) = [⟨1, false⟩] ∧
    scanClause sW8mid [⟨0, false⟩, ⟨1, false⟩] 0 none sW8mid.rndIdx = (none, sW8mid.rndIdx) ∧
    (⟨1, false⟩ : Lit) ∉ (reinitRelevant sW8).rootLits := by
  decide

end SlsSpec
